import Mathlib

set_option maxHeartbeats 1000000

/-!
Verification of the `toml_repo` package (Repo / RepoManager) against its
specification.  The package's core modules `repo.py` and `manager.py` are not
present in the sources (only `__init__.py` and the test suite are), so the
operational model below is built from the specification's description of the
data model, the resolution algorithm and the manager, cross-checked against
the behaviour asserted by the test suite.
-/

namespace TomlRepo

/-- Primitive TOML scalar values as they appear in the repository's documents. -/
inductive Prim where
  | s (v : String)
  | i (v : Int)
  | b (v : Bool)
deriving DecidableEq, Repr

/-- Modelled from the spec: the parsed TOML document tree (section 3).
`table` and `arr` mirror tomlkit tables and arrays of tables; `tagged` models
the `source` back-reference that resolution attaches to imported subtrees
(sections 3 and 4.2): an attribute set alongside the data, transparent to
ordinary indexing, with the owning Repo identified by its url. -/
inductive Toml where
  | prim (p : Prim)
  | table (entries : List (String × Toml))
  | arr (elems : List Toml)
  | tagged (source : String) (val : Toml)

mutual

/-- Rendering of a tree, used only for the `Repr` instance. -/
def Toml.fmt : Toml → String
  | .prim p => reprStr p
  | .table es => "table [" ++ Toml.fmtE es ++ "]"
  | .arr xs => "arr [" ++ Toml.fmtA xs ++ "]"
  | .tagged s v => "tagged " ++ s ++ " (" ++ v.fmt ++ ")"

/-- Rendering of array elements. -/
def Toml.fmtA : List Toml → String
  | [] => ""
  | x :: xs => x.fmt ++ ", " ++ Toml.fmtA xs

/-- Rendering of table entries. -/
def Toml.fmtE : List (String × Toml) → String
  | [] => ""
  | (k, v) :: es => k ++ " = " ++ v.fmt ++ ", " ++ Toml.fmtE es

end

instance : Repr Toml := ⟨fun t _ => Std.Format.text t.fmt⟩

/-- Association-list lookup, the model of dictionary access. -/
def alist [DecidableEq α] : List (α × β) → α → Option β
  | [], _ => none
  | (a, b) :: r, k => if a = k then some b else alist r k

/-- Key lookup on a node.  It sees through the `source` tag, exactly as
attribute monkey-patching leaves tomlkit item indexing untouched. -/
def Toml.index : Toml → String → Option Toml
  | .table es, k => alist es k
  | .tagged _ v, k => v.index k
  | _, _ => none

/-- The `.value` view of a node: the data beneath the `source` tag. -/
def Toml.value : Toml → Toml
  | .tagged _ v => v.value
  | .prim p => .prim p
  | .table es => .table es
  | .arr xs => .arr xs

/-- Array element access (for array-of-tables), also transparent to the tag. -/
def Toml.elemAt : Toml → Nat → Option Toml
  | .arr xs, n => xs.get? n
  | .tagged _ v, n => v.elemAt n
  | _, _ => none

/-- Dotted-path lookup over a tree, one segment at a time. -/
def lookupPath (t : Toml) : List String → Option Toml
  | [] => some t
  | k :: rest =>
    match t.index k with
    | some v => lookupPath v rest
    | none => none

mutual

/-- No node of the tree carries a key named after the reserved declaration
keyword resolved away by construction (spec section 3 invariant). -/
def impFree : Toml → Bool
  | .prim _ => true
  | .tagged _ v => impFree v
  | .arr xs => impFreeA xs
  | .table es => impFreeE es

/-- `impFree` over the elements of an array. -/
def impFreeA : List Toml → Bool
  | [] => true
  | x :: xs => impFree x && impFreeA xs

/-- `impFree` over the entries of a table. -/
def impFreeE : List (String × Toml) → Bool
  | [] => true
  | (k, v) :: es => !(k == "import") && impFree v && impFreeE es

end

mutual

/-- Post-construction mutation of a tree at a dotted path (the application is
allowed to mutate `config` after construction; spec section 3). -/
def setPath : Toml → List String → Toml → Toml
  | _, [], v => v
  | .table es, k :: rest, v => .table (setPathE es k rest v)
  | .tagged s u, p, v => .tagged s (setPath u p v)
  | .prim p, _ :: _, _ => .prim p
  | .arr xs, _ :: _, _ => .arr xs

/-- `setPath` on the entries of a table: rewrites the entry named `k`. -/
def setPathE : List (String × Toml) → String → List String → Toml → List (String × Toml)
  | [], _, _, _ => []
  | (k', u) :: es, k, rest, v =>
    (if k' = k then (k', setPath u rest v) else (k', u)) :: setPathE es k rest v

end

/-- Python `dict.update` semantics used when imported content is merged into an
array-of-tables element: keys of `base` keep their place but take the value
from `extra` when present there; keys only in `extra` are appended. -/
def mergeEntries (base extra : List (String × Toml)) : List (String × Toml) :=
  (base.map fun kv =>
    match alist extra kv.1 with
    | some v => (kv.1, v)
    | none => kv) ++
  extra.filter fun kv => (alist base kv.1).isNone

/-- Modelled from the spec (section 7): the error taxonomy.  `fuelOut` is the
model's artifact for running out of recursion fuel, never a behaviour of the
program. -/
inductive Err where
  | notFound (msg : String)
  | invalidImp (msg : String)
  | parseErr (msg : String)
  | fuelOut
deriving DecidableEq, Repr

/-- The mutable state of one top-level Repo construction: the per-construction
file cache keyed by (repo url, resolved file path), and the log of actual
load-and-parse events (each logged key is one parse of the underlying file). -/
structure St where
  cache : List ((String × String) × Toml)
  loads : List (String × String)
deriving Repr

/-- Modelled from the spec: the external world, mapping resolved config-file
urls to their parsed documents, plus the process-wide config suffix. -/
structure World where
  docs : List (String × Toml)
  sfx : String
deriving Repr

/-- Context of one resolution walk: the world, the url of the Repo being
built (`selfUrl`), the url of the document currently walked (`cfgUrl`) and
that document's parsed root (target of same-file imports). -/
structure Ctx where
  w : World
  selfUrl : String
  cfgUrl : String
  root : Toml
deriving Repr

/-- Modelled from the spec: a loaded repository (section 3). -/
structure Repo where
  url : String
  configUrl : String
  config : Toml
  impCache : List ((String × String) × Toml)
  loads : List (String × String)
deriving Repr

/-- Prefix test on character lists (kernel-computable). -/
def listPre : List Char → List Char → Bool
  | [], _ => true
  | _ :: _, [] => false
  | a :: as, b :: bs => a = b && listPre as bs

/-- Suffix test on strings (kernel-computable model of `String.endsWith`). -/
def strEndsWith (s p : String) : Bool :=
  listPre p.data.reverse s.data.reverse

/-- Split a character list at every occurrence of `c` (model of
`String.splitOn` with a one-character separator). -/
def splitOnC (c : Char) : List Char → List (List Char)
  | [] => [[]]
  | a :: rest =>
    match splitOnC c rest with
    | [] => [[a]]
    | r :: rs => if a = c then [] :: r :: rs else (a :: r) :: rs

/-- Split a string at every occurrence of `c`. -/
def splitStr (c : Char) (s : String) : List String :=
  (splitOnC c s.data).map String.mk

/-- Parent directory of a url: everything before the final slash. -/
def parentDir (s : String) : String :=
  String.mk ((s.data.reverse.dropWhile fun c => ¬c = '/').drop 1).reverse

/-- Modelled from the spec (section 4.1 step 1): the url of the document a
repo url denotes — the url itself when it already names a document (ends in
the configured suffix, or resolves to an existing file), otherwise the url
with the configured suffix appended. -/
def configUrlOf (w : World) (url : String) : String :=
  if strEndsWith url w.sfx then url
  else if (alist w.docs url).isSome then url
  else url ++ "/" ++ w.sfx

/-- Modelled from the spec (sections 3 and 4.2): fetch the document named by a
`file` field of an import, through the per-construction cache.  A cache hit
returns the previously parsed tree without touching the state; a miss loads
and parses the file (one entry appended to `loads`) and caches it. -/
def fetchDoc (ctx : Ctx) (st : St) (f : String) : Except Err (Toml × St) :=
  let path := parentDir ctx.cfgUrl ++ "/" ++ f
  let key := (ctx.selfUrl, path)
  match alist st.cache key with
  | some d => .ok (d, st)
  | none =>
    match alist ctx.w.docs path with
    | some d => .ok (d, ⟨(key, d) :: st.cache, key :: st.loads⟩)
    | none => .error (.notFound ("File not found: " ++ f))

mutual

/-- Modelled from the spec (section 4.2): resolve all `import` declarations in
one node, depth-first.  A table hosting an `import` key is replaced wholesale
by the resolved target (`resolveImp`); any other node is walked recursively.
`fuel` bounds the recursion depth of the model (cyclic import chains, which
would not terminate in the program either, exhaust it). -/
def resolveNode : Nat → Ctx → St → Toml → Except Err (Toml × St)
  | 0, _, _, _ => .error .fuelOut
  | n + 1, ctx, st, t =>
    match t with
    | .prim p => .ok (.prim p, st)
    | .tagged s v =>
      match resolveNode n ctx st v with
      | .ok (v', st') => .ok (.tagged s v', st')
      | .error e => .error e
    | .arr xs =>
      match resolveElems n ctx st xs with
      | .ok (xs', st') => .ok (.arr xs', st')
      | .error e => .error e
    | .table es =>
      match alist es "import" with
      | some spec => resolveImp n ctx st spec
      | none =>
        match resolveEntries n ctx st es with
        | .ok (es', st') => .ok (.table es', st')
        | .error e => .error e

/-- Walk the entries of a table that hosts no `import` key, resolving each
value in document order while threading the cache state. -/
def resolveEntries : Nat → Ctx → St → List (String × Toml) →
    Except Err (List (String × Toml) × St)
  | _, _, st, [] => .ok ([], st)
  | 0, _, _, _ :: _ => .error .fuelOut
  | n + 1, ctx, st, (k, v) :: rest =>
    match resolveNode n ctx st v with
    | .ok (v', st1) =>
      match resolveEntries n ctx st1 rest with
      | .ok (rest', st2) => .ok ((k, v') :: rest', st2)
      | .error e => .error e
    | .error e => .error e

/-- Walk the elements of an array (each array-of-tables element is walked as
an independent node). -/
def resolveElems : Nat → Ctx → St → List Toml → Except Err (List Toml × St)
  | _, _, st, [] => .ok ([], st)
  | 0, _, _, _ :: _ => .error .fuelOut
  | n + 1, ctx, st, x :: xs =>
    match resolveElem n ctx st x with
    | .ok (x', st1) =>
      match resolveElems n ctx st1 xs with
      | .ok (xs', st2) => .ok (x' :: xs', st2)
      | .error e => .error e
    | .error e => .error e

/-- Resolve one array-of-tables element.  An element hosting an `import` key
keeps its sibling keys: the resolved target is merged into the element (the
`import` key itself is dropped), as the test suite asserts for elements,
unlike the wholesale replacement performed for keyed table nodes. -/
def resolveElem : Nat → Ctx → St → Toml → Except Err (Toml × St)
  | 0, _, _, _ => .error .fuelOut
  | n + 1, ctx, st, x =>
    match x with
    | .table es =>
      match alist es "import" with
      | some spec =>
        match resolveImp n ctx st spec with
        | .ok (sub, st1) =>
          match resolveEntries n ctx st1 (es.filter fun kv => !(kv.1 == "import")) with
          | .ok (sibs, st2) =>
            match sub.value with
            | .table tes => .ok (.tagged ctx.selfUrl (.table (mergeEntries sibs tes)), st2)
            | _ => .ok (sub, st2)
          | .error e => .error e
        | .error e => .error e
      | none =>
        match resolveEntries n ctx st es with
        | .ok (es', st') => .ok (.table es', st')
        | .error e => .error e
    | _ => resolveNode n ctx st x

/-- Modelled from the spec (section 4.2 step 1): resolve one `import`
declaration, producing the node that replaces the declaring node.  The spec
must be a table carrying a `node` dotted path; the target document is the
named repo's config, the named file's (fully resolved) document, or the
current document's own root; the resolved target is deep-copied (implicit in
the pure model) and tagged with the url of the Repo owning the importing
document. -/
def resolveImp : Nat → Ctx → St → Toml → Except Err (Toml × St)
  | 0, _, _, _ => .error .fuelOut
  | n + 1, ctx, st, spec =>
    match spec with
    | .table ses =>
      match alist ses "node" with
      | some (.prim (.s npath)) =>
        match alist ses "repo" with
        | some (.prim (.s rurl)) =>
          match Repo.construct n ctx.w rurl with
          | .ok r =>
            match lookupPath r.config (splitStr '.' npath) with
            | some tgt => .ok (.tagged ctx.selfUrl tgt.value, st)
            | none => .error (.notFound ("node " ++ npath ++ " not found in path"))
          | .error e => .error e
        | some _ => .error (.invalidImp "Import spec repo must be a string")
        | none =>
          match alist ses "file" with
          | some (.prim (.s f)) =>
            match fetchDoc ctx st f with
            | .ok (d, st1) =>
              match resolveDocT n ⟨ctx.w, ctx.selfUrl, parentDir ctx.cfgUrl ++ "/" ++ f, d⟩ st1 d with
              | .ok (d', st2) =>
                match lookupPath d' (splitStr '.' npath) with
                | some tgt => .ok (.tagged ctx.selfUrl tgt.value, st2)
                | none => .error (.notFound ("node " ++ npath ++ " not found in path"))
              | .error e => .error e
            | .error e => .error e
          | some _ => .error (.invalidImp "Import spec file must be a string")
          | none =>
            match lookupPath ctx.root (splitStr '.' npath) with
            | some tgt =>
              match resolveNode n ctx st tgt with
              | .ok (t', st') => .ok (.tagged ctx.selfUrl t'.value, st')
              | .error e => .error e
            | none => .error (.notFound ("node " ++ npath ++ " not found in path"))
      | _ => .error (.invalidImp "Import spec must specify a node key")
    | _ => .error (.invalidImp "Import spec must be a table")

/-- Modelled from the spec (section 4.2): resolve a whole document.  The root
cannot host an `import` (there is no containing node to replace); resolution
then walks the children of the root. -/
def resolveDocT : Nat → Ctx → St → Toml → Except Err (Toml × St)
  | 0, _, _, _ => .error .fuelOut
  | n + 1, ctx, st, d =>
    match d with
    | .table es =>
      if (alist es "import").isSome then
        .error (.invalidImp "Cannot use import at the root level")
      else
        match resolveEntries n ctx st es with
        | .ok (es', st') => .ok (.table es', st')
        | .error e => .error e
    | _ => .error (.parseErr "document root must be a table")

/-- Modelled from the spec (section 4.1): construct a Repo from a url —
resolve the config url, fetch the parsed document from the world, run import
resolution over the whole tree with a fresh import cache, and keep the final
cache and load log as attributes of the built Repo. -/
def Repo.construct : Nat → World → String → Except Err Repo
  | 0, _, _ => .error .fuelOut
  | n + 1, w, url =>
    let cu := configUrlOf w url
    match alist w.docs cu with
    | none => .error (.notFound ("Repo config not found: " ++ cu))
    | some doc =>
      match resolveDocT n ⟨w, url, cu, doc⟩ ⟨[], []⟩ doc with
      | .ok (cfg, st) => .ok ⟨url, cu, cfg, st.cache, st.loads⟩
      | .error e => .error e

end

/-- Modelled from the spec (section 4.1): dotted-path lookup into a repo's
resolved config, `none` when any path segment is missing. -/
def Repo.getOpt (r : Repo) (path : String) : Option Toml :=
  lookupPath r.config (splitStr '.' path)

/-- Modelled from the spec (section 4.1): `get(path, default)` on one repo. -/
def Repo.getD (r : Repo) (path : String) (d : Toml) : Toml :=
  (r.getOpt path).getD d

/-- Modelled from the spec (sections 4.3 and 6): the `dir` fields of the
`repo-ref` array of tables of a resolved config. -/
def repoRefs (cfg : Toml) : List String :=
  match cfg.index "repo-ref" with
  | some t =>
    match t.value with
    | .arr xs =>
      xs.filterMap fun e =>
        match e.index "dir" with
        | some u =>
          match u.value with
          | .prim (.s s) => some s
          | _ => none
        | none => none
    | _ => []
  | none => []

/-- The url formed from a `repo-ref` directory entry. -/
def refUrl (d : String) : String := "file://" ++ d

/-- The urls of a list of repos, in order. -/
def urlsOf (rs : List Repo) : List String := rs.map Repo.url

/-- Modelled from the spec (section 4.3): the worklist loop behind `add_repo`.
The head url is skipped when already present (dedup by url); otherwise its
Repo is constructed, appended, and the urls of its `repo-ref` entries are
queued ahead of the rest (depth-first, exactly the order of the recursive
formulation).  `fuel` bounds the model's recursion; the dedup check is what
makes the real recursion finite. -/
def addLoop : Nat → World → List Repo → List String → Except Err (List Repo)
  | 0, _, _, _ => .error .fuelOut
  | _ + 1, _, repos, [] => .ok repos
  | n + 1, w, repos, u :: rest =>
    if u ∈ urlsOf repos then addLoop n w repos rest
    else
      match Repo.construct n w u with
      | .ok r => addLoop n w (repos ++ [r]) ((repoRefs r.config).map refUrl ++ rest)
      | .error e => .error e

/-- Modelled from the spec (section 3): the manager's ordered repo list;
insertion order is addition order and encodes precedence. -/
structure RepoManager where
  repos : List Repo

/-- Modelled from the spec (section 4.3): `add_repo` constructs the repo and
transitively adds every repo referenced through `repo-ref` chains. -/
def RepoManager.add_repo (fuel : Nat) (w : World) (m : RepoManager) (url : String) :
    Except Err RepoManager :=
  match addLoop fuel w m.repos [url] with
  | .ok rs => .ok ⟨rs⟩
  | .error e => .error e

/-- First non-missing lookup along a list of repos. -/
def firstHit : List Repo → String → Option Toml
  | [], _ => none
  | r :: rs, path =>
    match r.getOpt path with
    | some v => some v
    | none => firstHit rs path

/-- Modelled from the spec (section 4.3): `RepoManager.get(path, default)`
iterates the repos in reverse insertion order and returns the first
non-missing value, falling back to the caller-supplied default. -/
def RepoManager.getD (m : RepoManager) (path : String) (d : Toml) : Toml :=
  (firstHit m.repos.reverse path).getD d

/-- Invariant of the per-construction state: the load log lists exactly the
cache keys (one parse per cached document), without duplicates, and every
cache entry is keyed by the owning repo's url together with the resolved file
path and holds precisely the world's parsed document for that path. -/
def InvSt (u : String) (w : World) (st : St) : Prop :=
  st.loads = st.cache.map Prod.fst ∧ st.loads.Nodup ∧
    ∀ e ∈ st.cache, e.1.1 = u ∧ alist w.docs e.1.2 = some e.2

/-! Concrete documents and worlds mirroring the repository's test suite,
used as witnesses and counterexamples. -/

/-- World of `test_nested_imports`: a chain of three documents, each pulled in
through a `file` declaration of the previous one. -/
def wChain : World :=
  ⟨[("file://r/main.toml", .table [
      ("repo", .table [("kind", .prim (.s "recipe"))]),
      ("final", .table [("import", .table [
        ("file", .prim (.s "intermediate.toml")),
        ("node", .prim (.s "extended"))])])]),
    ("file://r/intermediate.toml", .table [
      ("repo", .table [("kind", .prim (.s "library"))]),
      ("extended", .table [("import", .table [
        ("file", .prim (.s "base.toml")),
        ("node", .prim (.s "foundation"))])])]),
    ("file://r/base.toml", .table [
      ("repo", .table [("kind", .prim (.s "library"))]),
      ("foundation", .table [
        ("tool", .prim (.s "siril")),
        ("base_value", .prim (.i 1))])])],
   "starbash.toml"⟩

/-- World of `test_import_in_array_of_tables`: two array-of-tables elements,
each declaring an `import` next to its own `name` key. -/
def wAot : World :=
  ⟨[("file://r2/test.toml", .table [
      ("repo", .table [("kind", .prim (.s "recipe"))]),
      ("base_stage", .table [
        ("tool", .prim (.s "siril")),
        ("priority", .prim (.i 10))]),
      ("stages", .arr [
        .table [("name", .prim (.s "calibrate")),
                ("import", .table [("node", .prim (.s "base_stage"))])],
        .table [("name", .prim (.s "stack")),
                ("import", .table [("node", .prim (.s "base_stage"))])]])])],
   "starbash.toml"⟩

/-- World of `test_basic_import_same_file`: one document importing one of its
own nodes. -/
def wSame : World :=
  ⟨[("file://r3/test.toml", .table [
      ("repo", .table [("kind", .prim (.s "recipe"))]),
      ("base_stage", .table [
        ("tool", .prim (.s "siril")),
        ("description", .prim (.s "Base stage definition")),
        ("context", .table [("value", .prim (.i 42))])]),
      ("my_stage", .table [("import", .table [("node", .prim (.s "base_stage"))])])])],
   "starbash.toml"⟩

/-- World of `test_import_caching`: two import sites referencing the same
library document. -/
def wCache : World :=
  ⟨[("file://r4/main.toml", .table [
      ("repo", .table [("kind", .prim (.s "recipe"))]),
      ("config_a", .table [("import", .table [
        ("file", .prim (.s "library.toml")),
        ("node", .prim (.s "setting_a"))])]),
      ("config_b", .table [("import", .table [
        ("file", .prim (.s "library.toml")),
        ("node", .prim (.s "setting_b"))])])]),
    ("file://r4/library.toml", .table [
      ("repo", .table [("kind", .prim (.s "library"))]),
      ("setting_a", .table [("value", .prim (.s "A"))]),
      ("setting_b", .table [("value", .prim (.s "B"))])])],
   "starbash.toml"⟩

/-- World of `test_multiple_imports_isolation`: two sites importing the very
same source node of a library document. -/
def wIso : World :=
  ⟨[("file://r5/main.toml", .table [
      ("repo", .table [("kind", .prim (.s "recipe"))]),
      ("copy1", .table [("import", .table [
        ("file", .prim (.s "base.toml")),
        ("node", .prim (.s "shared"))])]),
      ("copy2", .table [("import", .table [
        ("file", .prim (.s "base.toml")),
        ("node", .prim (.s "shared"))])])]),
    ("file://r5/base.toml", .table [
      ("repo", .table [("kind", .prim (.s "library"))]),
      ("shared", .table [
        ("mutable", .table [("value", .prim (.i 10))])])])],
   "starbash.toml"⟩

/-- World of `test_import_missing_node_error`: an import naming an absent
dotted path. -/
def wMissNode : World :=
  ⟨[("file://r6/test.toml", .table [
      ("repo", .table [("kind", .prim (.s "recipe"))]),
      ("stage", .table [("import", .table [("node", .prim (.s "nonexistent.node"))])])])],
   "starbash.toml"⟩

/-- World of `test_import_missing_file_error`: an import naming an absent
file. -/
def wMissFile : World :=
  ⟨[("file://r7/test.toml", .table [
      ("repo", .table [("kind", .prim (.s "recipe"))]),
      ("stage", .table [("import", .table [
        ("file", .prim (.s "nonexistent.toml")),
        ("node", .prim (.s "some.node"))])])])],
   "starbash.toml"⟩

/-- World of `test_import_missing_node_key_error`: an import table without a
`node` key. -/
def wNoNodeKey : World :=
  ⟨[("file://r8/test.toml", .table [
      ("repo", .table [("kind", .prim (.s "recipe"))]),
      ("stage", .table [("import", .table [("file", .prim (.s "other.toml"))])])])],
   "starbash.toml"⟩

/-- World of `test_import_invalid_spec_error`: an `import` key holding a bare
string instead of a table. -/
def wBadSpec : World :=
  ⟨[("file://r9/test.toml", .table [
      ("repo", .table [("kind", .prim (.s "recipe"))]),
      ("stage", .table [("import", .prim (.s "invalid_string_value"))])])],
   "starbash.toml"⟩

/-- World of `test_import_at_root_error`: an `import` table at the document
root. -/
def wRootImp : World :=
  ⟨[("file://r10/test.toml", .table [
      ("repo", .table [("kind", .prim (.s "recipe"))]),
      ("some", .table [("value", .prim (.i 1))]),
      ("import", .table [("node", .prim (.s "some"))])])],
   "starbash.toml"⟩

/-- A world with two repositories whose documents reference each other through
`repo-ref` entries (the cycle of `test_repo_manager_initialization`'s spec
property). -/
def wCyc : World :=
  ⟨[("file://A/starbash.toml", .table [
      ("repo", .table [("kind", .prim (.s "test"))]),
      ("repo-ref", .arr [.table [("dir", .prim (.s "B"))]])]),
    ("file://B/starbash.toml", .table [
      ("repo", .table [("kind", .prim (.s "raws"))]),
      ("repo-ref", .arr [.table [("dir", .prim (.s "A"))]])])],
   "starbash.toml"⟩

/-- A repo defining `user.name`, as in the precedence example of section 8. -/
def repoUserName : Repo :=
  ⟨"file://ra", "file://ra/starbash.toml",
   .table [("repo", .table [("kind", .prim (.s "recipe"))]),
           ("user", .table [("name", .prim (.s "default-user"))])],
   [], []⟩

/-- A repo defining `user.email`, added after `repoUserName`. -/
def repoUserEmail : Repo :=
  ⟨"file://rb", "file://rb/starbash.toml",
   .table [("repo", .table [("kind", .prim (.s "preferences"))]),
           ("user", .table [("email", .prim (.s "user@example.com"))])],
   [], []⟩

/-- The manager holding the two precedence-example repos in addition order. -/
def mgrUsers : RepoManager := ⟨[repoUserName, repoUserEmail]⟩

/-! ### Helper lemmas -/

theorem alist_mem [DecidableEq α] :
    ∀ {l : List (α × β)} {k : α} {v : β}, alist l k = some v → (k, v) ∈ l := by
  intro l
  induction l with
  | nil => intro k v h; simp [alist] at h
  | cons hd tl ih =>
    intro k v h
    obtain ⟨a, b⟩ := hd
    simp only [alist] at h
    split at h
    · next heq => cases h; exact heq ▸ List.mem_cons_self _ _
    · exact List.mem_cons_of_mem _ (ih h)

theorem alist_none_not_fst [DecidableEq α] :
    ∀ {l : List (α × β)} {k : α}, alist l k = none → k ∉ l.map Prod.fst := by
  intro l
  induction l with
  | nil => intro k _ hm; simp at hm
  | cons hd tl ih =>
    intro k h hm
    obtain ⟨a, b⟩ := hd
    simp only [alist] at h
    split at h
    · cases h
    · next hne =>
      simp only [List.map_cons, List.mem_cons] at hm
      rcases hm with hm | hm
      · exact hne hm.symm
      · exact ih h hm

theorem lookupPath_append :
    ∀ (p : List String) (t : Toml) (q : List String),
      lookupPath t (p ++ q) =
        match lookupPath t p with
        | some v => lookupPath v q
        | none => none := by
  intro p
  induction p with
  | nil => intro t q; simp [lookupPath]
  | cons k rest ih =>
    intro t q
    simp only [List.cons_append, lookupPath]
    cases h : t.index k with
    | none => simp
    | some v => simpa using ih v q

theorem impFreeE_iff :
    ∀ {es : List (String × Toml)},
      impFreeE es = true ↔ ∀ kv ∈ es, ¬(kv.1 = "import") ∧ impFree kv.2 = true := by
  intro es
  induction es with
  | nil => simp [impFreeE]
  | cons hd tl ih =>
    obtain ⟨k, v⟩ := hd
    simp only [impFreeE, Bool.and_eq_true, Bool.not_eq_true', beq_eq_false_iff_ne,
      List.mem_cons, ih]
    constructor
    · rintro ⟨⟨hk, hv⟩, htl⟩ kv hkv
      rcases hkv with rfl | hkv
      · exact ⟨hk, hv⟩
      · exact htl kv hkv
    · intro h
      exact ⟨⟨(h (k, v) (Or.inl rfl)).1, (h (k, v) (Or.inl rfl)).2⟩,
        fun kv hkv => h kv (Or.inr hkv)⟩

theorem impFreeA_iff :
    ∀ {xs : List Toml}, impFreeA xs = true ↔ ∀ x ∈ xs, impFree x = true := by
  intro xs
  induction xs with
  | nil => simp [impFreeA]
  | cons hd tl ih =>
    simp only [impFreeA, Bool.and_eq_true, List.mem_cons, ih]
    constructor
    · rintro ⟨hh, ht⟩ x (rfl | hx)
      · exact hh
      · exact ht x hx
    · intro h
      exact ⟨h hd (Or.inl rfl), fun x hx => h x (Or.inr hx)⟩

theorem impFree_value : ∀ (t : Toml), impFree t = true → impFree t.value = true
  | .prim p, h => by simpa [Toml.value] using h
  | .table es, h => by simpa [Toml.value] using h
  | .arr xs, h => by simpa [Toml.value] using h
  | .tagged _ v, h => impFree_value v (by simpa [impFree] using h)

theorem impFree_index :
    ∀ (t : Toml) (k : String) (v : Toml),
      impFree t = true → t.index k = some v → impFree v = true
  | .prim _, _, _, _, hx => by simp [Toml.index] at hx
  | .arr _, _, _, _, hx => by simp [Toml.index] at hx
  | .table es, k, v, h, hx =>
    ((impFreeE_iff.mp (by simpa [impFree] using h)) _ (alist_mem hx)).2
  | .tagged _ u, k, v, h, hx =>
    impFree_index u k v (by simpa [impFree] using h) (by simpa [Toml.index] using hx)

theorem impFree_lookupPath :
    ∀ (p : List String) (t : Toml) (v : Toml),
      impFree t = true → lookupPath t p = some v → impFree v = true := by
  intro p
  induction p with
  | nil => intro t v h hx; cases hx; exact h
  | cons k rest ih =>
    intro t v h hx
    simp only [lookupPath] at hx
    cases hidx : t.index k with
    | none => rw [hidx] at hx; cases hx
    | some u => rw [hidx] at hx; exact ih u v (impFree_index t k u h hidx) hx

/-! ### Claim theorems -/

/-- Every successful `resolveImp` output is a node tagged with the url of the
Repo owning the importing document. -/
theorem resolveImp_tagged :
    ∀ (n : Nat) (ctx : Ctx) (st : St) (spec out : Toml) (st' : St),
      resolveImp n ctx st spec = .ok (out, st') → ∃ x, out = .tagged ctx.selfUrl x := by
  intro n ctx st spec out st' h
  match n with
  | 0 => simp [resolveImp] at h
  | n + 1 =>
    simp only [resolveImp] at h
    repeat' split at h
    all_goals first
      | (rw [Except.ok.injEq, Prod.mk.injEq] at h; exact ⟨_, h.1.symm⟩)
      | exact Except.noConfusion h

/-- C9: every resolved import site is tagged with a `source` equal to the Repo
owning the importing document (identified by its url), not the repo the
content was imported from: any successful `resolveImp` output is a node
tagged with `ctx.selfUrl`, and likewise for an array-of-tables element that
declares an import. -/
theorem claim_C9 :
    (∀ (n : Nat) (ctx : Ctx) (st : St) (spec out : Toml) (st' : St),
      resolveImp n ctx st spec = .ok (out, st') → ∃ x, out = .tagged ctx.selfUrl x)
    ∧ ∀ (n : Nat) (ctx : Ctx) (st : St) (es : List (String × Toml)) (spec out : Toml)
        (st' : St), alist es "import" = some spec →
        resolveElem n ctx st (.table es) = .ok (out, st') →
        ∃ x, out = .tagged ctx.selfUrl x := by
  refine ⟨resolveImp_tagged, ?_⟩
  intro n ctx st es spec out st' hsp h
  match n with
  | 0 => simp [resolveElem] at h
  | n + 1 =>
    simp only [resolveElem, hsp] at h
    repeat' split at h
    all_goals first
      | (rw [Except.ok.injEq, Prod.mk.injEq] at h; exact ⟨_, h.1.symm⟩)
      | (rw [Except.ok.injEq, Prod.mk.injEq] at h
         exact h.1 ▸ (resolveImp_tagged _ _ _ _ _ _ (by assumption)))
      | exact Except.noConfusion h

/-- C9 witness: the same-file import site of the `wSame` document resolves to
a node tagged with the constructing repo's url. -/
theorem claim_C9_w :
    ∃ x, Toml.tagged "file://r3/test.toml"
        (.table [("tool", .prim (.s "siril")),
                 ("description", .prim (.s "Base stage definition")),
                 ("context", .table [("value", .prim (.i 42))])]) =
      .tagged "file://r3/test.toml" x :=
  claim_C9.1 20
    ⟨wSame, "file://r3/test.toml", "file://r3/test.toml",
     .table [("repo", .table [("kind", .prim (.s "recipe"))]),
             ("base_stage", .table [("tool", .prim (.s "siril")),
               ("description", .prim (.s "Base stage definition")),
               ("context", .table [("value", .prim (.i 42))])]),
             ("my_stage", .table [("import", .table [("node", .prim (.s "base_stage"))])])]⟩
    ⟨[], []⟩ (.table [("node", .prim (.s "base_stage"))]) _ ⟨[], []⟩ rfl

/-- C6: a malformed import declaration fails with `InvalidImportError` in each
of the three cases — the `import` value is not a table, the import table has
no `node` key, and an `import` key appears at the document root; in the
concrete worlds mirroring the tests, the whole Repo construction aborts with
that error. -/
theorem claim_C6 :
    (∀ (n : Nat) (ctx : Ctx) (st : St) (spec : Toml),
      (∀ ses, spec ≠ Toml.table ses) →
      resolveImp (n + 1) ctx st spec = .error (.invalidImp "Import spec must be a table"))
    ∧ (∀ (n : Nat) (ctx : Ctx) (st : St) (ses : List (String × Toml)),
      alist ses "node" = none →
      resolveImp (n + 1) ctx st (.table ses) =
        .error (.invalidImp "Import spec must specify a node key"))
    ∧ (∀ (n : Nat) (ctx : Ctx) (st : St) (es : List (String × Toml)),
      (alist es "import").isSome = true →
      resolveDocT (n + 1) ctx st (.table es) =
        .error (.invalidImp "Cannot use import at the root level"))
    ∧ Repo.construct 20 wBadSpec "file://r9/test.toml" =
        .error (.invalidImp "Import spec must be a table")
    ∧ Repo.construct 20 wNoNodeKey "file://r8/test.toml" =
        .error (.invalidImp "Import spec must specify a node key")
    ∧ Repo.construct 20 wRootImp "file://r10/test.toml" =
        .error (.invalidImp "Cannot use import at the root level") := by
  refine ⟨?_, ?_, ?_, rfl, rfl, rfl⟩
  · intro n ctx st spec hne
    cases spec with
    | table ses => exact absurd rfl (hne ses)
    | prim p => simp [resolveImp]
    | arr xs => simp [resolveImp]
    | tagged s v => simp [resolveImp]
  · intro n ctx st ses h
    simp [resolveImp, h]
  · intro n ctx st es h
    simp [resolveDocT, h]

/-- C6 witness: the three general clauses applied at concrete inputs taken
from the test worlds. -/
theorem claim_C6_w :
    resolveImp 3 ⟨wBadSpec, "u", "c", .prim (.b true)⟩ ⟨[], []⟩
        (.prim (.s "invalid_string_value")) =
      .error (.invalidImp "Import spec must be a table")
    ∧ resolveImp 3 ⟨wNoNodeKey, "u", "c", .prim (.b true)⟩ ⟨[], []⟩
        (.table [("file", .prim (.s "other.toml"))]) =
      .error (.invalidImp "Import spec must specify a node key")
    ∧ resolveDocT 3 ⟨wRootImp, "u", "c", .prim (.b true)⟩ ⟨[], []⟩
        (.table [("import", .table [("node", .prim (.s "some"))])]) =
      .error (.invalidImp "Cannot use import at the root level") :=
  ⟨claim_C6.1 2 _ _ _ (fun _ h => by cases h),
   claim_C6.2.1 2 _ _ _ rfl,
   claim_C6.2.2.1 2 _ _ _ rfl⟩

/-- C5: resolving an import whose dotted `node` path has any absent prefix in
the target document fails with `NotFoundError`, as does an import whose
`file` document cannot be retrieved; in the concrete worlds mirroring the
tests, the whole Repo construction aborts with that error. -/
theorem claim_C5 :
    (∀ (n : Nat) (ctx : Ctx) (st : St) (ses : List (String × Toml))
        (npath : String) (pre suf : List String),
      alist ses "node" = some (.prim (.s npath)) →
      alist ses "repo" = none →
      alist ses "file" = none →
      splitStr '.' npath = pre ++ suf →
      lookupPath ctx.root pre = none →
      ∃ m, resolveImp (n + 1) ctx st (.table ses) = .error (.notFound m))
    ∧ (∀ (n : Nat) (ctx : Ctx) (st : St) (ses : List (String × Toml))
        (npath f : String),
      alist ses "node" = some (.prim (.s npath)) →
      alist ses "repo" = none →
      alist ses "file" = some (.prim (.s f)) →
      alist st.cache (ctx.selfUrl, parentDir ctx.cfgUrl ++ "/" ++ f) = none →
      alist ctx.w.docs (parentDir ctx.cfgUrl ++ "/" ++ f) = none →
      ∃ m, resolveImp (n + 1) ctx st (.table ses) = .error (.notFound m))
    ∧ Repo.construct 20 wMissNode "file://r6/test.toml" =
        .error (.notFound "node nonexistent.node not found in path")
    ∧ Repo.construct 20 wMissFile "file://r7/test.toml" =
        .error (.notFound "File not found: nonexistent.toml") := by
  refine ⟨?_, ?_, rfl, rfl⟩
  · intro n ctx st ses npath pre suf h1 h2 h3 h4 h5
    have hnone : lookupPath ctx.root (splitStr '.' npath) = none := by
      rw [h4, lookupPath_append, h5]
    exact ⟨"node " ++ npath ++ " not found in path",
      by simp [resolveImp, h1, h2, h3, hnone]⟩
  · intro n ctx st ses npath f h1 h2 h3 h4 h5
    exact ⟨"File not found: " ++ f,
      by simp [resolveImp, h1, h2, h3, fetchDoc, h4, h5]⟩

/-- C5 witness: the two general clauses applied to the concrete documents of
the failing tests. -/
theorem claim_C5_w :
    (∃ m, resolveImp 8
        ⟨wMissNode, "file://r6/test.toml", "file://r6/test.toml",
         .table [("repo", .table [("kind", .prim (.s "recipe"))]),
                 ("stage", .table [("import",
                    .table [("node", .prim (.s "nonexistent.node"))])])]⟩
        ⟨[], []⟩ (.table [("node", .prim (.s "nonexistent.node"))]) =
      .error (.notFound m))
    ∧ ∃ m, resolveImp 8
        ⟨wMissFile, "file://r7/test.toml", "file://r7/test.toml",
         .table [("repo", .table [("kind", .prim (.s "recipe"))]),
                 ("stage", .table [("import", .table [
                    ("file", .prim (.s "nonexistent.toml")),
                    ("node", .prim (.s "some.node"))])])]⟩
        ⟨[], []⟩ (.table [("file", .prim (.s "nonexistent.toml")),
                          ("node", .prim (.s "some.node"))]) =
      .error (.notFound m) :=
  ⟨claim_C5.1 7 _ _ _ "nonexistent.node" ["nonexistent"] ["node"] rfl rfl rfl rfl rfl,
   claim_C5.2.1 7 _ _ _ "some.node" "nonexistent.toml" rfl rfl rfl rfl rfl⟩

/-- C2 counterexample: in the array-of-tables world of
`test_import_in_array_of_tables`, the element `stages[0]` declares an import
of `base_stage` next to its sibling key `name`; after construction the
element still carries `name = "calibrate"`, although the import target
`base_stage` has no `name` key — so the node does not equal exactly the
target's contents and the sibling was not discarded. -/
theorem claim_C2_cex :
    ∃ r, Repo.construct 30 wAot "file://r2/test.toml" = .ok r
      ∧ (((r.config.index "stages").bind fun t => t.elemAt 0).bind
            fun t => t.index "name") = some (.prim (.s "calibrate"))
      ∧ (Toml.table [("tool", .prim (.s "siril")),
            ("priority", .prim (.i 10))]).index "name" = none :=
  ⟨_, rfl, rfl, rfl⟩

/-- C2 (amended): for a keyed table node containing an `import` table,
resolution replaces the entire node content — the outcome is exactly that of
resolving the import declaration alone, so sibling keys are discarded and
never consulted; for a node that is an element of an array of tables,
however, the resolved target is merged into the element: the `import` key is
dropped, the remaining sibling keys are kept, and the target's entries are
added with the target winning on key collisions. -/
theorem claim_C2 :
    (∀ (n : Nat) (ctx : Ctx) (st : St) (es es₂ : List (String × Toml)) (spec : Toml),
      alist es "import" = some spec → alist es₂ "import" = some spec →
      resolveNode (n + 1) ctx st (.table es) = resolveNode (n + 1) ctx st (.table es₂))
    ∧ (∀ (n : Nat) (ctx : Ctx) (st : St) (es : List (String × Toml)) (spec : Toml),
      alist es "import" = some spec →
      resolveNode (n + 1) ctx st (.table es) = resolveImp n ctx st spec)
    ∧ (∀ (n : Nat) (ctx : Ctx) (st st1 st2 : St) (es sibs tes : List (String × Toml))
        (spec sub : Toml),
      alist es "import" = some spec →
      resolveImp n ctx st spec = .ok (sub, st1) →
      resolveEntries n ctx st1 (es.filter fun kv => !(kv.1 == "import")) = .ok (sibs, st2) →
      sub.value = .table tes →
      resolveElem (n + 1) ctx st (.table es) =
        .ok (.tagged ctx.selfUrl (.table (mergeEntries sibs tes)), st2)) := by
  refine ⟨?_, ?_, ?_⟩
  · intro n ctx st es es₂ spec h1 h2
    simp [resolveNode, h1, h2]
  · intro n ctx st es spec h
    simp [resolveNode, h]
  · intro n ctx st st1 st2 es sibs tes spec sub h1 h2 h3 h4
    simp [resolveElem, h1, h2, h3, h4]

/-- C2 witness: sibling irrelevance at a keyed node (a node with a
`custom_key` sibling resolves exactly like the bare import node), and the
merge equation at the first array-of-tables element of the `wAot` world. -/
theorem claim_C2_w :
    (resolveNode 9
        ⟨wSame, "file://r3/test.toml", "file://r3/test.toml",
         .table [("base_stage", .table [("tool", .prim (.s "siril"))])]⟩
        ⟨[], []⟩
        (.table [("custom_key", .prim (.s "custom_value")),
                 ("import", .table [("node", .prim (.s "base_stage"))])]) =
      resolveNode 9
        ⟨wSame, "file://r3/test.toml", "file://r3/test.toml",
         .table [("base_stage", .table [("tool", .prim (.s "siril"))])]⟩
        ⟨[], []⟩
        (.table [("import", .table [("node", .prim (.s "base_stage"))])]))
    ∧ resolveElem 20
        ⟨wAot, "file://r2/test.toml", "file://r2/test.toml",
         .table [("base_stage", .table [("tool", .prim (.s "siril")),
                    ("priority", .prim (.i 10))])]⟩
        ⟨[], []⟩
        (.table [("name", .prim (.s "calibrate")),
                 ("import", .table [("node", .prim (.s "base_stage"))])]) =
      .ok (.tagged "file://r2/test.toml"
            (.table (mergeEntries [("name", .prim (.s "calibrate"))]
              [("tool", .prim (.s "siril")), ("priority", .prim (.i 10))])),
           ⟨[], []⟩) :=
  ⟨claim_C2.1 8 _ _ _ _ _ rfl rfl,
   claim_C2.2.2 19 _ _ _ _ _ _ _ _ _ rfl rfl rfl rfl⟩

theorem firstHit_append :
    ∀ (xs ys : List Repo) (p : String),
      firstHit (xs ++ ys) p =
        match firstHit xs p with
        | some v => some v
        | none => firstHit ys p := by
  intro xs
  induction xs with
  | nil => intro ys p; simp [firstHit]
  | cons r rs ih =>
    intro ys p
    simp only [List.cons_append, firstHit]
    cases h : r.getOpt p with
    | some v => simp
    | none => simpa using ih ys p

theorem firstHit_none :
    ∀ (xs : List Repo) (p : String),
      (∀ r ∈ xs, r.getOpt p = none) → firstHit xs p = none := by
  intro xs
  induction xs with
  | nil => intro p _; rfl
  | cons r rs ih =>
    intro p h
    simp only [firstHit, h r (List.mem_cons_self _ _)]
    exact ih p fun r' hr' => h r' (List.mem_cons_of_mem _ hr')

/-- C3: `RepoManager.get` iterates the repos in reverse insertion order: the
value returned is the one of the last-added repo defining the path (any repo
positioned after it in the insertion order not defining the path), and the
caller-supplied default is returned when no repo defines the path.
Precedence is per individual key path, since the winning repo depends only on
which repos define that particular path. -/
theorem claim_C3 :
    (∀ (m : RepoManager) (path : String) (d : Toml) (pre suf : List Repo)
        (r : Repo) (v : Toml),
      m.repos = pre ++ r :: suf →
      r.getOpt path = some v →
      (∀ r' ∈ suf, r'.getOpt path = none) →
      m.getD path d = v)
    ∧ ∀ (m : RepoManager) (path : String) (d : Toml),
      (∀ r ∈ m.repos, r.getOpt path = none) → m.getD path d = d := by
  constructor
  · intro m path d pre suf r v hrepos hr hsuf
    unfold RepoManager.getD
    rw [hrepos]
    have : (pre ++ r :: suf).reverse = suf.reverse ++ r :: pre.reverse := by
      simp
    rw [this, firstHit_append,
      firstHit_none suf.reverse path fun r' hr' => hsuf r' (List.mem_reverse.mp hr')]
    simp [firstHit, hr]
  · intro m path d h
    unfold RepoManager.getD
    rw [firstHit_none m.repos.reverse path fun r hr => h r (List.mem_reverse.mp hr)]
    rfl

/-- C3 witness: the precedence example of the spec — `user.name` comes from
the earlier repo, `user.email` from the later repo, and a missing path
returns the supplied default. -/
theorem claim_C3_w :
    mgrUsers.getD "user.name" (.prim (.s "fallback")) = .prim (.s "default-user")
    ∧ mgrUsers.getD "user.email" (.prim (.s "fallback")) = .prim (.s "user@example.com")
    ∧ mgrUsers.getD "non.existent.key" (.prim (.s "fallback")) = .prim (.s "fallback") :=
  ⟨claim_C3.1 mgrUsers "user.name" _ [] [repoUserEmail] repoUserName _ rfl rfl
      (by intro r' hr'; simp only [List.mem_singleton] at hr'; subst hr'; rfl),
   claim_C3.1 mgrUsers "user.email" _ [repoUserName] [] repoUserEmail _ rfl rfl
      (by intro r' hr'; simp at hr'),
   claim_C3.2 mgrUsers "non.existent.key" _
      (by intro r hr
          simp only [mgrUsers, List.mem_cons, List.mem_singleton] at hr
          rcases hr with rfl | rfl | h
          · rfl
          · rfl
          · cases h)⟩

theorem construct_url :
    ∀ (n : Nat) (w : World) (u : String) (r : Repo),
      Repo.construct n w u = .ok r → r.url = u := by
  intro n w u r h
  match n with
  | 0 => cases h
  | n + 1 =>
    simp only [Repo.construct] at h
    repeat' split at h
    all_goals first
      | (rw [Except.ok.injEq] at h; cases h; rfl)
      | exact Except.noConfusion h

/-- C7: the worklist behind `add_repo` deduplicates by url — starting from a
url-duplicate-free repo list, a successful run returns a duplicate-free list
that contains every pending url, keeps every previously added repo, and is
transitively closed: every newly added repo's `repo-ref` urls are themselves
present.  On the concrete world of two repos referencing each other, the run
terminates with exactly the two repos for every sufficiently large fuel (the
dedup check stops the recursion, so the result does not depend on the fuel). -/
theorem claim_C7 :
    (∀ (fuel : Nat) (w : World) (repos : List Repo) (pending : List String)
        (res : List Repo),
      addLoop fuel w repos pending = .ok res →
      ((urlsOf repos).Nodup → (urlsOf res).Nodup)
      ∧ (∀ u ∈ pending, u ∈ urlsOf res)
      ∧ (∀ x ∈ repos, x ∈ res)
      ∧ ∀ r ∈ res, r ∈ repos ∨ ∀ d ∈ repoRefs r.config, refUrl d ∈ urlsOf res)
    ∧ ∀ m : Nat, (addLoop (m + 12) wCyc [] ["file://A"]).map urlsOf =
        .ok ["file://A", "file://B"] := by
  constructor
  · intro fuel
    induction fuel with
    | zero => intro w repos pending res h; cases h
    | succ n ih =>
      intro w repos pending res h
      cases pending with
      | nil =>
        simp only [addLoop] at h
        rw [Except.ok.injEq] at h
        subst h
        exact ⟨fun hd => hd, by simp, fun x hx => hx, fun r hr => Or.inl hr⟩
      | cons u rest =>
        simp only [addLoop] at h
        split at h
        · next hmem =>
          obtain ⟨hnd, hpend, hsub, hclo⟩ := ih w repos rest res h
          refine ⟨hnd, ?_, hsub, hclo⟩
          intro u' hu'
          rcases List.mem_cons.mp hu' with rfl | hu'
          · obtain ⟨x, hx, hxu⟩ := List.mem_map.mp hmem
            exact List.mem_map.mpr ⟨x, hsub x hx, hxu⟩
          · exact hpend u' hu'
        · next hmem =>
          split at h
          · next r heq =>
            have hurl := construct_url n w u r heq
            obtain ⟨hnd, hpend, hsub, hclo⟩ := ih w _ _ res h
            refine ⟨?_, ?_, ?_, ?_⟩
            · intro hnodup
              apply hnd
              simp only [urlsOf, List.map_append, List.map_cons, List.map_nil]
              rw [List.nodup_append]
              exact ⟨hnodup, List.nodup_singleton _,
                by simpa [urlsOf, hurl] using fun hc => hmem hc⟩
            · intro u' hu'
              rcases List.mem_cons.mp hu' with rfl | hu'
              · have : r ∈ res := hsub r (List.mem_append_right _ (List.mem_singleton.mpr rfl))
                exact List.mem_map.mpr ⟨r, this, hurl⟩
              · exact hpend u' (List.mem_append_right _ hu')
            · intro x hx
              exact hsub x (List.mem_append_left _ hx)
            · intro r' hr'
              rcases hclo r' hr' with hmem' | hrefs
              · rcases List.mem_append.mp hmem' with h1 | h2
                · exact Or.inl h1
                · have hr2 : r' = r := List.mem_singleton.mp h2
                  subst hr2
                  exact Or.inr fun d hd => hpend (refUrl d)
                    (List.mem_append_left _ (List.mem_map.mpr ⟨d, hd, rfl⟩))
              · exact Or.inr hrefs
          · exact Except.noConfusion h
  · intro m
    rfl

/-- C7 witness: the general clause applied to the cyclic two-repo world —
the run adds each referenced repo exactly once with no duplicate urls. -/
theorem claim_C7_w :
    ∃ res, addLoop 12 wCyc [] ["file://A"] = .ok res
      ∧ (urlsOf res).Nodup ∧ "file://A" ∈ urlsOf res := by
  refine ⟨_, rfl, ?_, ?_⟩
  · exact (claim_C7.1 12 wCyc [] ["file://A"] _ rfl).1 List.nodup_nil
  · exact (claim_C7.1 12 wCyc [] ["file://A"] _ rfl).2.1 "file://A" (List.mem_singleton.mpr rfl)

theorem key_ne_of_alist_none {es out : List (String × Toml)}
    (hk : out.map Prod.fst = es.map Prod.fst) (hnone : alist es "import" = none) :
    ∀ kv ∈ out, ¬(kv.1 = "import") := by
  intro kv hkv heq
  have hmem : kv.1 ∈ es.map Prod.fst := hk ▸ List.mem_map_of_mem Prod.fst hkv
  exact alist_none_not_fst hnone (heq ▸ hmem)

theorem impFreeE_of_parts {out : List (String × Toml)}
    (h1 : ∀ kv ∈ out, ¬(kv.1 = "import")) (h2 : ∀ kv ∈ out, impFree kv.2 = true) :
    impFreeE out = true :=
  impFreeE_iff.mpr fun kv hkv => ⟨h1 kv hkv, h2 kv hkv⟩

theorem filtered_no_imp {es : List (String × Toml)} :
    ∀ kv ∈ es.filter fun kv => !(kv.1 == "import"), ¬(kv.1 = "import") := by
  intro kv hkv
  have := List.of_mem_filter hkv
  simpa using this

theorem impFreeE_merge {base extra : List (String × Toml)}
    (hb : impFreeE base = true) (he : impFreeE extra = true) :
    impFreeE (mergeEntries base extra) = true := by
  apply impFreeE_iff.mpr
  intro kv hkv
  rcases List.mem_append.mp hkv with hm | hm
  · obtain ⟨kv0, hkv0, hf⟩ := List.mem_map.mp hm
    have hb0 := impFreeE_iff.mp hb kv0 hkv0
    cases hx : alist extra kv0.1 with
    | some v =>
      rw [hx] at hf
      subst hf
      exact ⟨hb0.1, (impFreeE_iff.mp he _ (alist_mem hx)).2⟩
    | none =>
      rw [hx] at hf
      subst hf
      exact hb0
  · exact impFreeE_iff.mp he kv (List.mem_of_mem_filter hm)

theorem fetchDoc_inv :
    ∀ (ctx : Ctx) (st : St) (f : String) (d : Toml) (st' : St),
      fetchDoc ctx st f = .ok (d, st') → InvSt ctx.selfUrl ctx.w st →
      InvSt ctx.selfUrl ctx.w st' ∧
        alist ctx.w.docs (parentDir ctx.cfgUrl ++ "/" ++ f) = some d := by
  intro ctx st f d st' h hInv
  simp only [fetchDoc] at h
  split at h
  · rename_i d0 heq
    rw [Except.ok.injEq, Prod.mk.injEq] at h
    obtain ⟨rfl, rfl⟩ := h
    exact ⟨hInv, (hInv.2.2 _ (alist_mem heq)).2⟩
  · rename_i heq
    split at h
    · rename_i d0 heq2
      rw [Except.ok.injEq, Prod.mk.injEq] at h
      obtain ⟨rfl, rfl⟩ := h
      refine ⟨⟨?_, ?_, ?_⟩, heq2⟩
      · simp [hInv.1]
      · refine List.Nodup.cons ?_ hInv.2.1
        rw [hInv.1]
        exact fun hc => alist_none_not_fst heq hc
      · intro e he
        rcases List.mem_cons.mp he with rfl | he
        · exact ⟨rfl, heq2⟩
        · exact hInv.2.2 e he
    · exact Except.noConfusion h

/-- The central invariant of the resolver, proved by induction on the fuel:
a successful run of any resolver function preserves the cache invariant
`InvSt`, and every tree it produces is free of unresolved `import` keys
(`resolveEntries` additionally preserves the keys of the walked table). -/
theorem resolveOk :
    ∀ n : Nat,
      (∀ (ctx : Ctx) (st : St) (t out : Toml) (st' : St),
        resolveNode n ctx st t = .ok (out, st') → InvSt ctx.selfUrl ctx.w st →
        InvSt ctx.selfUrl ctx.w st' ∧ impFree out = true)
      ∧ (∀ (ctx : Ctx) (st : St) (es out : List (String × Toml)) (st' : St),
        resolveEntries n ctx st es = .ok (out, st') → InvSt ctx.selfUrl ctx.w st →
        InvSt ctx.selfUrl ctx.w st' ∧ out.map Prod.fst = es.map Prod.fst ∧
          ∀ kv ∈ out, impFree kv.2 = true)
      ∧ (∀ (ctx : Ctx) (st : St) (xs out : List Toml) (st' : St),
        resolveElems n ctx st xs = .ok (out, st') → InvSt ctx.selfUrl ctx.w st →
        InvSt ctx.selfUrl ctx.w st' ∧ ∀ x ∈ out, impFree x = true)
      ∧ (∀ (ctx : Ctx) (st : St) (x out : Toml) (st' : St),
        resolveElem n ctx st x = .ok (out, st') → InvSt ctx.selfUrl ctx.w st →
        InvSt ctx.selfUrl ctx.w st' ∧ impFree out = true)
      ∧ (∀ (ctx : Ctx) (st : St) (spec out : Toml) (st' : St),
        resolveImp n ctx st spec = .ok (out, st') → InvSt ctx.selfUrl ctx.w st →
        InvSt ctx.selfUrl ctx.w st' ∧ impFree out = true)
      ∧ (∀ (ctx : Ctx) (st : St) (d out : Toml) (st' : St),
        resolveDocT n ctx st d = .ok (out, st') → InvSt ctx.selfUrl ctx.w st →
        InvSt ctx.selfUrl ctx.w st' ∧ impFree out = true)
      ∧ ∀ (w : World) (url : String) (r : Repo),
        Repo.construct n w url = .ok r →
        impFree r.config = true ∧ InvSt url w ⟨r.impCache, r.loads⟩ := by
  intro n
  induction n with
  | zero =>
    refine ⟨?_, ?_, ?_, ?_, ?_, ?_, ?_⟩
    · intro ctx st t out st' h; cases h
    · intro ctx st es out st' h hInv
      cases es with
      | nil =>
        simp only [resolveEntries] at h
        rw [Except.ok.injEq, Prod.mk.injEq] at h
        obtain ⟨rfl, rfl⟩ := h
        exact ⟨hInv, rfl, by simp⟩
      | cons kv rest => cases h
    · intro ctx st xs out st' h hInv
      cases xs with
      | nil =>
        simp only [resolveElems] at h
        rw [Except.ok.injEq, Prod.mk.injEq] at h
        obtain ⟨rfl, rfl⟩ := h
        exact ⟨hInv, by simp⟩
      | cons x rest => cases h
    · intro ctx st x out st' h; cases h
    · intro ctx st spec out st' h; cases h
    · intro ctx st d out st' h; cases h
    · intro w url r h; cases h
  | succ n ih =>
    obtain ⟨ihNode, ihEntries, ihElems, ihElem, ihImp, ihDocT, ihCons⟩ := ih
    have hNode : ∀ (ctx : Ctx) (st : St) (t out : Toml) (st' : St),
        resolveNode (n + 1) ctx st t = .ok (out, st') → InvSt ctx.selfUrl ctx.w st →
        InvSt ctx.selfUrl ctx.w st' ∧ impFree out = true := by
      intro ctx st t out st' h hInv
      cases t with
      | prim p =>
        simp only [resolveNode] at h
        rw [Except.ok.injEq, Prod.mk.injEq] at h
        obtain ⟨rfl, rfl⟩ := h
        exact ⟨hInv, rfl⟩
      | tagged s v =>
        simp only [resolveNode] at h
        split at h
        · rename_i v' st1 heq
          rw [Except.ok.injEq, Prod.mk.injEq] at h
          obtain ⟨rfl, rfl⟩ := h
          obtain ⟨hI, hF⟩ := ihNode ctx st v v' st1 heq hInv
          exact ⟨hI, by simpa [impFree] using hF⟩
        · exact Except.noConfusion h
      | arr xs =>
        simp only [resolveNode] at h
        split at h
        · rename_i xs' st1 heq
          rw [Except.ok.injEq, Prod.mk.injEq] at h
          obtain ⟨rfl, rfl⟩ := h
          obtain ⟨hI, hF⟩ := ihElems ctx st xs xs' st1 heq hInv
          exact ⟨hI, by simpa [impFree] using impFreeA_iff.mpr hF⟩
        · exact Except.noConfusion h
      | table es =>
        simp only [resolveNode] at h
        split at h
        · rename_i spec heq
          exact ihImp ctx st spec out st' h hInv
        · rename_i heq
          split at h
          · rename_i es' st1 heq2
            rw [Except.ok.injEq, Prod.mk.injEq] at h
            obtain ⟨rfl, rfl⟩ := h
            obtain ⟨hI, hK, hV⟩ := ihEntries ctx st es es' st1 heq2 hInv
            exact ⟨hI, by
              simpa [impFree] using impFreeE_of_parts (key_ne_of_alist_none hK heq) hV⟩
          · exact Except.noConfusion h
    have hImp : ∀ (ctx : Ctx) (st : St) (spec out : Toml) (st' : St),
        resolveImp (n + 1) ctx st spec = .ok (out, st') → InvSt ctx.selfUrl ctx.w st →
        InvSt ctx.selfUrl ctx.w st' ∧ impFree out = true := by
      intro ctx st spec out st' h hInv
      simp only [resolveImp] at h
      split at h
      case _ ses =>
        split at h
        case _ npath hnode =>
          split at h
          · -- repo import
            rename_i rurl hrepo
            split at h
            · rename_i r heqc
              split at h
              · rename_i tgt heqp
                rw [Except.ok.injEq, Prod.mk.injEq] at h
                obtain ⟨rfl, rfl⟩ := h
                have hcfg := (ihCons ctx.w rurl r heqc).1
                have htgt := impFree_lookupPath _ _ _ hcfg heqp
                exact ⟨hInv, by simpa [impFree] using impFree_value _ htgt⟩
              · exact Except.noConfusion h
            · exact Except.noConfusion h
          · exact Except.noConfusion h
          · -- no repo key
            split at h
            · -- file import
              rename_i f hfile
              split at h
              · rename_i d st1 heqf
                split at h
                · rename_i d' st2 heqd
                  split at h
                  · rename_i tgt heqp
                    rw [Except.ok.injEq, Prod.mk.injEq] at h
                    obtain ⟨rfl, rfl⟩ := h
                    obtain ⟨hI1, _⟩ := fetchDoc_inv ctx st f d st1 heqf hInv
                    obtain ⟨hI2, hF2⟩ := ihDocT _ st1 d d' st2 heqd hI1
                    have htgt := impFree_lookupPath _ _ _ hF2 heqp
                    exact ⟨hI2, by simpa [impFree] using impFree_value _ htgt⟩
                  · exact Except.noConfusion h
                · exact Except.noConfusion h
              · exact Except.noConfusion h
            · exact Except.noConfusion h
            · -- same-file import
              split at h
              · rename_i tgt heqp
                split at h
                · rename_i t' st1 heqn
                  rw [Except.ok.injEq, Prod.mk.injEq] at h
                  obtain ⟨rfl, rfl⟩ := h
                  obtain ⟨hI, hF⟩ := ihNode ctx st tgt t' st1 heqn hInv
                  exact ⟨hI, by simpa [impFree] using impFree_value _ hF⟩
                · exact Except.noConfusion h
              · exact Except.noConfusion h
        case _ => exact Except.noConfusion h
      case _ => exact Except.noConfusion h
    have hDocT : ∀ (ctx : Ctx) (st : St) (d out : Toml) (st' : St),
        resolveDocT (n + 1) ctx st d = .ok (out, st') → InvSt ctx.selfUrl ctx.w st →
        InvSt ctx.selfUrl ctx.w st' ∧ impFree out = true := by
      intro ctx st d out st' h hInv
      cases d with
      | table es =>
        simp only [resolveDocT] at h
        split at h
        · exact Except.noConfusion h
        · rename_i hroot
          split at h
          · rename_i es' st1 heq
            rw [Except.ok.injEq, Prod.mk.injEq] at h
            obtain ⟨rfl, rfl⟩ := h
            obtain ⟨hI, hK, hV⟩ := ihEntries ctx st es es' st1 heq hInv
            have hnone : alist es "import" = none :=
              Option.not_isSome_iff_eq_none.mp hroot
            exact ⟨hI, by
              simpa [impFree] using impFreeE_of_parts (key_ne_of_alist_none hK hnone) hV⟩
          · exact Except.noConfusion h
      | prim p => cases h
      | arr xs => cases h
      | tagged s v => cases h
    refine ⟨hNode, ?_, ?_, ?_, hImp, hDocT, ?_⟩
    · -- entries
      intro ctx st es out st' h hInv
      cases es with
      | nil =>
        simp only [resolveEntries] at h
        rw [Except.ok.injEq, Prod.mk.injEq] at h
        obtain ⟨rfl, rfl⟩ := h
        exact ⟨hInv, rfl, by simp⟩
      | cons kv rest =>
        obtain ⟨k, v⟩ := kv
        simp only [resolveEntries] at h
        split at h
        · rename_i v' st1 heq1
          split at h
          · rename_i rest' st2 heq2
            rw [Except.ok.injEq, Prod.mk.injEq] at h
            obtain ⟨rfl, rfl⟩ := h
            obtain ⟨hI1, hF1⟩ := ihNode ctx st v v' st1 heq1 hInv
            obtain ⟨hI2, hK2, hV2⟩ := ihEntries ctx st1 rest rest' st2 heq2 hI1
            refine ⟨hI2, by simp [hK2], ?_⟩
            intro kv hkv
            rcases List.mem_cons.mp hkv with rfl | hkv
            · exact hF1
            · exact hV2 kv hkv
          · exact Except.noConfusion h
        · exact Except.noConfusion h
    · -- elems
      intro ctx st xs out st' h hInv
      cases xs with
      | nil =>
        simp only [resolveElems] at h
        rw [Except.ok.injEq, Prod.mk.injEq] at h
        obtain ⟨rfl, rfl⟩ := h
        exact ⟨hInv, by simp⟩
      | cons x rest =>
        simp only [resolveElems] at h
        split at h
        · rename_i x' st1 heq1
          split at h
          · rename_i rest' st2 heq2
            rw [Except.ok.injEq, Prod.mk.injEq] at h
            obtain ⟨rfl, rfl⟩ := h
            obtain ⟨hI1, hF1⟩ := ihElem ctx st x x' st1 heq1 hInv
            obtain ⟨hI2, hV2⟩ := ihElems ctx st1 rest rest' st2 heq2 hI1
            refine ⟨hI2, ?_⟩
            intro y hy
            rcases List.mem_cons.mp hy with rfl | hy
            · exact hF1
            · exact hV2 y hy
          · exact Except.noConfusion h
        · exact Except.noConfusion h
    · -- elem
      intro ctx st x out st' h hInv
      cases x with
      | table es =>
        simp only [resolveElem] at h
        split at h
        · rename_i spec heq
          split at h
          · rename_i sub st1 heqi
            split at h
            · rename_i sibs st2 heqs
              obtain ⟨hI1, hF1⟩ := ihImp ctx st spec sub st1 heqi hInv
              obtain ⟨hI2, hK2, hV2⟩ := ihEntries ctx st1 _ sibs st2 heqs hI1
              split at h
              · rename_i tes heqv
                rw [Except.ok.injEq, Prod.mk.injEq] at h
                obtain ⟨rfl, rfl⟩ := h
                refine ⟨hI2, ?_⟩
                have hsibs : impFreeE sibs = true := by
                  refine impFreeE_of_parts ?_ hV2
                  intro kv hkv heq'
                  have hmem : kv.1 ∈
                      (es.filter fun kv => !(kv.1 == "import")).map Prod.fst :=
                    hK2 ▸ List.mem_map_of_mem Prod.fst hkv
                  obtain ⟨kv0, hkv0, hfst⟩ := List.mem_map.mp hmem
                  exact filtered_no_imp kv0 hkv0 (by rw [hfst, heq'])
                have htes : impFreeE tes = true := by
                  have := impFree_value _ hF1
                  rw [heqv] at this
                  simpa [impFree] using this
                simpa [impFree] using impFreeE_merge hsibs htes
              · rw [Except.ok.injEq, Prod.mk.injEq] at h
                obtain ⟨rfl, rfl⟩ := h
                exact ⟨hI2, hF1⟩
            · exact Except.noConfusion h
          · exact Except.noConfusion h
        · rename_i heq
          split at h
          · rename_i es' st1 heq2
            rw [Except.ok.injEq, Prod.mk.injEq] at h
            obtain ⟨rfl, rfl⟩ := h
            obtain ⟨hI, hK, hV⟩ := ihEntries ctx st es es' st1 heq2 hInv
            exact ⟨hI, by
              simpa [impFree] using impFreeE_of_parts (key_ne_of_alist_none hK heq) hV⟩
          · exact Except.noConfusion h
      | prim p => exact ihNode ctx st _ out st' h hInv
      | arr xs => exact ihNode ctx st _ out st' h hInv
      | tagged s v => exact ihNode ctx st _ out st' h hInv
    · -- construct
      intro w url r h
      simp only [Repo.construct] at h
      split at h
      · exact Except.noConfusion h
      · rename_i doc heq
        split at h
        · rename_i cfg st1 heqd
          rw [Except.ok.injEq] at h
          subst h
          have hInv0 : InvSt url w ⟨[], []⟩ := ⟨rfl, List.nodup_nil, by simp⟩
          obtain ⟨hI, hF⟩ := ihDocT ⟨w, url, configUrlOf w url, doc⟩ ⟨[], []⟩
            doc cfg st1 heqd hInv0
          exact ⟨hF, hI⟩
        · exact Except.noConfusion h

/-- C1: for every document successfully loaded by Repo construction, the
resulting config tree contains no `import` key at any node — including the
chained-import case, since the theorem covers every world, in particular
chains of documents importing through other imports. -/
theorem claim_C1 :
    ∀ (fuel : Nat) (w : World) (url : String) (r : Repo),
      Repo.construct fuel w url = .ok r → impFree r.config = true :=
  fun fuel w url r h => ((resolveOk fuel).2.2.2.2.2.2 w url r h).1

/-- C1 witness: the three-document chained-import world resolves successfully
and its config is free of `import` keys. -/
theorem claim_C1_w :
    ∃ r, Repo.construct 30 wChain "file://r/main.toml" = .ok r
      ∧ impFree r.config = true :=
  ⟨_, rfl, claim_C1 30 wChain "file://r/main.toml" _ rfl⟩

/-- C8: during one Repo construction every document referenced by a
`file` declaration is loaded and parsed at most once — the load log of the built repo has
no duplicates and lists exactly the cache keys; the cache, kept as an
attribute of the built Repo, maps keys formed from the repo url and the
resolved file path to the world's parsed document for that path; and a fetch
whose key is already cached is served from the cache without loading. -/
theorem claim_C8 :
    (∀ (fuel : Nat) (w : World) (url : String) (r : Repo),
      Repo.construct fuel w url = .ok r →
      r.loads.Nodup
      ∧ r.loads = r.impCache.map Prod.fst
      ∧ ∀ e ∈ r.impCache, e.1.1 = url ∧ alist w.docs e.1.2 = some e.2)
    ∧ ∀ (ctx : Ctx) (st : St) (f : String) (d : Toml),
      alist st.cache (ctx.selfUrl, parentDir ctx.cfgUrl ++ "/" ++ f) = some d →
      fetchDoc ctx st f = .ok (d, st) := by
  constructor
  · intro fuel w url r h
    obtain ⟨-, hInv⟩ := (resolveOk fuel).2.2.2.2.2.2 w url r h
    exact ⟨hInv.2.1, hInv.1, hInv.2.2⟩
  · intro ctx st f d h
    simp [fetchDoc, h]

/-- C8 witness: in the double-import world the library document is parsed
exactly once (a single load entry serves both import sites), and re-fetching
the cached key returns the cached document unchanged. -/
theorem claim_C8_w :
    ∃ r, Repo.construct 30 wCache "file://r4/main.toml" = .ok r
      ∧ r.loads = [("file://r4/main.toml", "file://r4/library.toml")]
      ∧ r.loads.Nodup := by
  refine ⟨_, rfl, rfl, ?_⟩
  exact (claim_C8.1 30 wCache "file://r4/main.toml" _ rfl).1

/-- Fuel monotonicity: a successful run of any resolver function is stable
under giving the model more fuel — the fuel is a termination device of the
model, not a parameter of the program. -/
theorem resolveMono :
    ∀ n1 : Nat,
      (∀ (ctx : Ctx) (st : St) (t : Toml) (r : Toml × St),
        resolveNode n1 ctx st t = .ok r →
        ∀ n2, n1 ≤ n2 → resolveNode n2 ctx st t = .ok r)
      ∧ (∀ (ctx : Ctx) (st : St) (es : List (String × Toml))
          (r : List (String × Toml) × St),
        resolveEntries n1 ctx st es = .ok r →
        ∀ n2, n1 ≤ n2 → resolveEntries n2 ctx st es = .ok r)
      ∧ (∀ (ctx : Ctx) (st : St) (xs : List Toml) (r : List Toml × St),
        resolveElems n1 ctx st xs = .ok r →
        ∀ n2, n1 ≤ n2 → resolveElems n2 ctx st xs = .ok r)
      ∧ (∀ (ctx : Ctx) (st : St) (x : Toml) (r : Toml × St),
        resolveElem n1 ctx st x = .ok r →
        ∀ n2, n1 ≤ n2 → resolveElem n2 ctx st x = .ok r)
      ∧ (∀ (ctx : Ctx) (st : St) (spec : Toml) (r : Toml × St),
        resolveImp n1 ctx st spec = .ok r →
        ∀ n2, n1 ≤ n2 → resolveImp n2 ctx st spec = .ok r)
      ∧ (∀ (ctx : Ctx) (st : St) (d : Toml) (r : Toml × St),
        resolveDocT n1 ctx st d = .ok r →
        ∀ n2, n1 ≤ n2 → resolveDocT n2 ctx st d = .ok r)
      ∧ ∀ (w : World) (url : String) (r : Repo),
        Repo.construct n1 w url = .ok r →
        ∀ n2, n1 ≤ n2 → Repo.construct n2 w url = .ok r := by
  intro n1
  induction n1 with
  | zero =>
    refine ⟨?_, ?_, ?_, ?_, ?_, ?_, ?_⟩
    · intro _ _ _ _ h; cases h
    · intro ctx st es r h n2 _
      cases es with
      | nil =>
        simp only [resolveEntries] at h
        rw [Except.ok.injEq] at h
        subst h
        cases n2 <;> rfl
      | cons kv rest => cases h
    · intro ctx st xs r h n2 _
      cases xs with
      | nil =>
        simp only [resolveElems] at h
        rw [Except.ok.injEq] at h
        subst h
        cases n2 <;> rfl
      | cons x rest => cases h
    · intro _ _ _ _ h; cases h
    · intro _ _ _ _ h; cases h
    · intro _ _ _ _ h; cases h
    · intro _ _ _ h; cases h
  | succ n ih =>
    obtain ⟨ihNode, ihEntries, ihElems, ihElem, ihImp, ihDocT, ihCons⟩ := ih
    have hNode : ∀ (ctx : Ctx) (st : St) (t : Toml) (r : Toml × St),
        resolveNode (n + 1) ctx st t = .ok r →
        ∀ n2, n + 1 ≤ n2 → resolveNode n2 ctx st t = .ok r := by
      intro ctx st t r h n2 hle
      obtain ⟨m, rfl⟩ : ∃ m, n2 = m + 1 :=
        ⟨n2 - 1, by omega⟩
      have hnm : n ≤ m := by omega
      cases t with
      | prim p =>
        simp only [resolveNode] at h ⊢
        exact h
      | tagged s v =>
        simp only [resolveNode] at h ⊢
        split at h
        · rename_i v1 st1 heq1
          simp only [ihNode ctx st v _ heq1 m hnm]
          exact h
        · exact Except.noConfusion h
      | arr xs =>
        simp only [resolveNode] at h ⊢
        split at h
        · rename_i xs1 st1 heq1
          simp only [ihElems ctx st xs _ heq1 m hnm]
          exact h
        · exact Except.noConfusion h
      | table es =>
        simp only [resolveNode] at h ⊢
        split at h
        · rename_i spec heq
          exact ihImp ctx st spec r h m hnm
        · rename_i heq
          split at h
          · rename_i es1 st1 heq1
            simp only [ihEntries ctx st es _ heq1 m hnm]
            exact h
          · exact Except.noConfusion h
    have hImp : ∀ (ctx : Ctx) (st : St) (spec : Toml) (r : Toml × St),
        resolveImp (n + 1) ctx st spec = .ok r →
        ∀ n2, n + 1 ≤ n2 → resolveImp n2 ctx st spec = .ok r := by
      intro ctx st spec r h n2 hle
      obtain ⟨m, rfl⟩ : ∃ m, n2 = m + 1 := ⟨n2 - 1, by omega⟩
      have hnm : n ≤ m := by omega
      simp only [resolveImp] at h ⊢
      split at h
      case _ ses =>
        split at h
        case _ npath hnode =>
          split at h
          · rename_i rurl hrepo
            split at h
            · rename_i rr heqc
              simp only [ihCons ctx.w rurl rr heqc m hnm]
              exact h
            · exact Except.noConfusion h
          · exact Except.noConfusion h
          · rename_i hrepo
            split at h
            · rename_i f hfile
              split at h
              · rename_i d st1 heqf
                split at h
                · rename_i d1 st2 heqd
                  simp only [ihDocT _ st1 d _ heqd m hnm]
                  exact h
                · exact Except.noConfusion h
              · exact Except.noConfusion h
            · exact Except.noConfusion h
            · rename_i hfile
              split at h
              · rename_i tgt heqp
                split at h
                · rename_i t1 st1 heqn
                  simp only [ihNode ctx st tgt _ heqn m hnm]
                  exact h
                · exact Except.noConfusion h
              · exact Except.noConfusion h
        case _ hnode => exact Except.noConfusion h
      case _ hnt => exact Except.noConfusion h
    have hDocT : ∀ (ctx : Ctx) (st : St) (d : Toml) (r : Toml × St),
        resolveDocT (n + 1) ctx st d = .ok r →
        ∀ n2, n + 1 ≤ n2 → resolveDocT n2 ctx st d = .ok r := by
      intro ctx st d r h n2 hle
      obtain ⟨m, rfl⟩ : ∃ m, n2 = m + 1 := ⟨n2 - 1, by omega⟩
      have hnm : n ≤ m := by omega
      cases d with
      | table es =>
        simp only [resolveDocT] at h ⊢
        split at h
        · exact Except.noConfusion h
        · rename_i hroot
          rw [if_neg hroot]
          split at h
          · rename_i es1 st1 heq1
            simp only [ihEntries ctx st es _ heq1 m hnm]
            exact h
          · exact Except.noConfusion h
      | prim p => cases h
      | arr xs => cases h
      | tagged s v => cases h
    refine ⟨hNode, ?_, ?_, ?_, hImp, hDocT, ?_⟩
    · intro ctx st es r h n2 hle
      cases es with
      | nil =>
        simp only [resolveEntries] at h
        rw [Except.ok.injEq] at h
        subst h
        cases n2 <;> rfl
      | cons kv rest =>
        obtain ⟨m, rfl⟩ : ∃ m, n2 = m + 1 := ⟨n2 - 1, by omega⟩
        have hnm : n ≤ m := by omega
        obtain ⟨k, v⟩ := kv
        simp only [resolveEntries] at h ⊢
        split at h
        · rename_i v1 st1 heq1
          simp only [ihNode ctx st v _ heq1 m hnm]
          split at h
          · rename_i rest1 stb1 heqr1
            simp only [ihEntries ctx st1 rest _ heqr1 m hnm]
            exact h
          · exact Except.noConfusion h
        · exact Except.noConfusion h
    · intro ctx st xs r h n2 hle
      cases xs with
      | nil =>
        simp only [resolveElems] at h
        rw [Except.ok.injEq] at h
        subst h
        cases n2 <;> rfl
      | cons x rest =>
        obtain ⟨m, rfl⟩ : ∃ m, n2 = m + 1 := ⟨n2 - 1, by omega⟩
        have hnm : n ≤ m := by omega
        simp only [resolveElems] at h ⊢
        split at h
        · rename_i x1 st1 heq1
          simp only [ihElem ctx st x _ heq1 m hnm]
          split at h
          · rename_i rest1 stb1 heqr1
            simp only [ihElems ctx st1 rest _ heqr1 m hnm]
            exact h
          · exact Except.noConfusion h
        · exact Except.noConfusion h
    · intro ctx st x r h n2 hle
      obtain ⟨m, rfl⟩ : ∃ m, n2 = m + 1 := ⟨n2 - 1, by omega⟩
      have hnm : n ≤ m := by omega
      cases x with
      | table es =>
        simp only [resolveElem] at h ⊢
        split at h
        · rename_i spec heq
          split at h
          · rename_i sub st1 heqi
            simp only [ihImp ctx st spec _ heqi m hnm]
            split at h
            · rename_i sibs st2 heqs
              simp only [ihEntries ctx st1 _ _ heqs m hnm]
              exact h
            · exact Except.noConfusion h
          · exact Except.noConfusion h
        · rename_i heq
          split at h
          · rename_i es1 st1 heq1
            simp only [ihEntries ctx st es _ heq1 m hnm]
            exact h
          · exact Except.noConfusion h
      | prim p =>
        simp only [resolveElem] at h ⊢
        exact ihNode ctx st _ r h m hnm
      | arr xs =>
        simp only [resolveElem] at h ⊢
        exact ihNode ctx st _ r h m hnm
      | tagged s v =>
        simp only [resolveElem] at h ⊢
        exact ihNode ctx st _ r h m hnm
    · intro w url r h n2 hle
      obtain ⟨m, rfl⟩ : ∃ m, n2 = m + 1 := ⟨n2 - 1, by omega⟩
      have hnm : n ≤ m := by omega
      simp only [Repo.construct] at h ⊢
      split at h
      · exact Except.noConfusion h
      · rename_i doc heq
        split at h
        · rename_i cfg st1 heqd
          simp only [ihDocT _ _ doc _ heqd m hnm]
          exact h
        · exact Except.noConfusion h

/-- Fuel irrelevance for Repo construction: two successful constructions of
the same url in the same world agree, whatever fuel each was given. -/
theorem constructFI :
    ∀ (n1 n2 : Nat) (w : World) (url : String) (r1 r2 : Repo),
      Repo.construct n1 w url = .ok r1 → Repo.construct n2 w url = .ok r2 →
      r1 = r2 := by
  intro n1 n2 w url r1 r2 h1 h2
  rcases Nat.le_total n1 n2 with hle | hle
  · have := (resolveMono n1).2.2.2.2.2.2 w url r1 h1 n2 hle
    rw [this] at h2
    exact (Except.ok.injEq _ _).mp h2
  · have := (resolveMono n2).2.2.2.2.2.2 w url r2 h2 n1 hle
    rw [this] at h1
    exact ((Except.ok.injEq _ _).mp h1).symm

/-- Value determinism: two successful runs of the same resolver function on
the same node, in the same context but from possibly different cache states
(both satisfying the cache invariant) and with possibly different fuels,
produce the same value — the cache can only change how many loads happen,
never the resolved content. -/
theorem resolveVD :
    ∀ n1 : Nat,
      (∀ (n2 : Nat) (ctx : Ctx) (st1 st2 : St) (t o1 o2 : Toml) (s1 s2 : St),
        resolveNode n1 ctx st1 t = .ok (o1, s1) → resolveNode n2 ctx st2 t = .ok (o2, s2) →
        InvSt ctx.selfUrl ctx.w st1 → InvSt ctx.selfUrl ctx.w st2 → o1 = o2)
      ∧ (∀ (n2 : Nat) (ctx : Ctx) (st1 st2 : St) (es : List (String × Toml))
          (o1 o2 : List (String × Toml)) (s1 s2 : St),
        resolveEntries n1 ctx st1 es = .ok (o1, s1) →
        resolveEntries n2 ctx st2 es = .ok (o2, s2) →
        InvSt ctx.selfUrl ctx.w st1 → InvSt ctx.selfUrl ctx.w st2 → o1 = o2)
      ∧ (∀ (n2 : Nat) (ctx : Ctx) (st1 st2 : St) (xs : List Toml)
          (o1 o2 : List Toml) (s1 s2 : St),
        resolveElems n1 ctx st1 xs = .ok (o1, s1) →
        resolveElems n2 ctx st2 xs = .ok (o2, s2) →
        InvSt ctx.selfUrl ctx.w st1 → InvSt ctx.selfUrl ctx.w st2 → o1 = o2)
      ∧ (∀ (n2 : Nat) (ctx : Ctx) (st1 st2 : St) (x o1 o2 : Toml) (s1 s2 : St),
        resolveElem n1 ctx st1 x = .ok (o1, s1) → resolveElem n2 ctx st2 x = .ok (o2, s2) →
        InvSt ctx.selfUrl ctx.w st1 → InvSt ctx.selfUrl ctx.w st2 → o1 = o2)
      ∧ (∀ (n2 : Nat) (ctx : Ctx) (st1 st2 : St) (spec o1 o2 : Toml) (s1 s2 : St),
        resolveImp n1 ctx st1 spec = .ok (o1, s1) → resolveImp n2 ctx st2 spec = .ok (o2, s2) →
        InvSt ctx.selfUrl ctx.w st1 → InvSt ctx.selfUrl ctx.w st2 → o1 = o2)
      ∧ ∀ (n2 : Nat) (ctx : Ctx) (st1 st2 : St) (d o1 o2 : Toml) (s1 s2 : St),
        resolveDocT n1 ctx st1 d = .ok (o1, s1) → resolveDocT n2 ctx st2 d = .ok (o2, s2) →
        InvSt ctx.selfUrl ctx.w st1 → InvSt ctx.selfUrl ctx.w st2 → o1 = o2 := by
  intro n1
  induction n1 with
  | zero =>
    refine ⟨?_, ?_, ?_, ?_, ?_, ?_⟩
    · intro _ _ _ _ _ _ _ _ _ h1; cases h1
    · intro n2 ctx st1 st2 es o1 o2 s1 s2 h1 h2 _ _
      cases es with
      | nil =>
        simp only [resolveEntries] at h1 h2
        rw [Except.ok.injEq, Prod.mk.injEq] at h1 h2
        rw [← h1.1, ← h2.1]
      | cons kv rest => cases h1
    · intro n2 ctx st1 st2 xs o1 o2 s1 s2 h1 h2 _ _
      cases xs with
      | nil =>
        simp only [resolveElems] at h1 h2
        rw [Except.ok.injEq, Prod.mk.injEq] at h1 h2
        rw [← h1.1, ← h2.1]
      | cons x rest => cases h1
    · intro _ _ _ _ _ _ _ _ _ h1; cases h1
    · intro _ _ _ _ _ _ _ _ _ h1; cases h1
    · intro _ _ _ _ _ _ _ _ _ h1; cases h1
  | succ n ih =>
    obtain ⟨ihNode, ihEntries, ihElems, ihElem, ihImp, ihDocT⟩ := ih
    have hNode : ∀ (n2 : Nat) (ctx : Ctx) (st1 st2 : St) (t o1 o2 : Toml) (s1 s2 : St),
        resolveNode (n + 1) ctx st1 t = .ok (o1, s1) →
        resolveNode n2 ctx st2 t = .ok (o2, s2) →
        InvSt ctx.selfUrl ctx.w st1 → InvSt ctx.selfUrl ctx.w st2 → o1 = o2 := by
      intro n2 ctx st1 st2 t o1 o2 s1 s2 h1 h2 hI1 hI2
      cases n2 with
      | zero => cases h2
      | succ m =>
        cases t with
        | prim p =>
          simp only [resolveNode] at h1 h2
          rw [Except.ok.injEq, Prod.mk.injEq] at h1 h2
          rw [← h1.1, ← h2.1]
        | tagged s v =>
          simp only [resolveNode] at h1 h2
          split at h1
          · rename_i v1 sa1 heq1
            split at h2
            · rename_i v2 sa2 heq2
              have hv := ihNode m ctx st1 st2 v v1 v2 sa1 sa2 heq1 heq2 hI1 hI2
              rw [Except.ok.injEq, Prod.mk.injEq] at h1 h2
              rw [← h1.1, ← h2.1, hv]
            · exact Except.noConfusion h2
          · exact Except.noConfusion h1
        | arr xs =>
          simp only [resolveNode] at h1 h2
          split at h1
          · rename_i xs1 sa1 heq1
            split at h2
            · rename_i xs2 sa2 heq2
              have hv := ihElems m ctx st1 st2 xs xs1 xs2 sa1 sa2 heq1 heq2 hI1 hI2
              rw [Except.ok.injEq, Prod.mk.injEq] at h1 h2
              rw [← h1.1, ← h2.1, hv]
            · exact Except.noConfusion h2
          · exact Except.noConfusion h1
        | table es =>
          simp only [resolveNode] at h1 h2
          split at h1
          · rename_i spec heq
            simp only [heq] at h2
            exact ihImp m ctx st1 st2 spec o1 o2 s1 s2 h1 h2 hI1 hI2
          · rename_i heq
            simp only [heq] at h2
            split at h1
            · rename_i es1 sa1 heq1
              split at h2
              · rename_i es2 sa2 heq2
                have hv := ihEntries m ctx st1 st2 es es1 es2 sa1 sa2 heq1 heq2 hI1 hI2
                rw [Except.ok.injEq, Prod.mk.injEq] at h1 h2
                rw [← h1.1, ← h2.1, hv]
              · exact Except.noConfusion h2
            · exact Except.noConfusion h1
    have hImp : ∀ (n2 : Nat) (ctx : Ctx) (st1 st2 : St) (spec o1 o2 : Toml) (s1 s2 : St),
        resolveImp (n + 1) ctx st1 spec = .ok (o1, s1) →
        resolveImp n2 ctx st2 spec = .ok (o2, s2) →
        InvSt ctx.selfUrl ctx.w st1 → InvSt ctx.selfUrl ctx.w st2 → o1 = o2 := by
      intro n2 ctx st1 st2 spec o1 o2 s1 s2 h1 h2 hI1 hI2
      cases n2 with
      | zero => cases h2
      | succ m =>
        simp only [resolveImp] at h1 h2
        split at h1
        case _ ses =>
          split at h1
          case _ npath hnode =>
            simp only [hnode] at h2
            split at h1
            · rename_i rurl hrepo
              simp only [hrepo] at h2
              split at h1
              · rename_i rr1 heqc1
                split at h2
                · rename_i rr2 heqc2
                  cases constructFI n m ctx.w rurl rr1 rr2 heqc1 heqc2
                  split at h1
                  · rename_i tgt heqp
                    simp only [heqp] at h2
                    rw [Except.ok.injEq, Prod.mk.injEq] at h1 h2
                    rw [← h1.1, ← h2.1]
                  · exact Except.noConfusion h1
                · exact Except.noConfusion h2
              · exact Except.noConfusion h1
            · exact Except.noConfusion h1
            · rename_i hrepo
              simp only [hrepo] at h2
              split at h1
              · rename_i f hfile
                simp only [hfile] at h2
                split at h1
                · rename_i d1 sa1 heqf1
                  split at h2
                  · rename_i d2 sa2 heqf2
                    obtain ⟨hIa1, hd1⟩ := fetchDoc_inv ctx st1 f d1 sa1 heqf1 hI1
                    obtain ⟨hIa2, hd2⟩ := fetchDoc_inv ctx st2 f d2 sa2 heqf2 hI2
                    have hd : d1 = d2 := by
                      have := hd1.symm.trans hd2
                      exact Option.some.inj this
                    subst hd
                    split at h1
                    · rename_i d1' sb1 heqd1
                      split at h2
                      · rename_i d2' sb2 heqd2
                        have hv := ihDocT m _ sa1 sa2 d1 d1' d2' sb1 sb2
                          heqd1 heqd2 hIa1 hIa2
                        subst hv
                        split at h1
                        · rename_i tgt heqp
                          simp only [heqp] at h2
                          rw [Except.ok.injEq, Prod.mk.injEq] at h1 h2
                          rw [← h1.1, ← h2.1]
                        · exact Except.noConfusion h1
                      · exact Except.noConfusion h2
                    · exact Except.noConfusion h1
                  · exact Except.noConfusion h2
                · exact Except.noConfusion h1
              · exact Except.noConfusion h1
              · rename_i hfile
                simp only [hfile] at h2
                split at h1
                · rename_i tgt heqp
                  simp only [heqp] at h2
                  split at h1
                  · rename_i t1 sa1 heqn1
                    split at h2
                    · rename_i t2 sa2 heqn2
                      have hv := ihNode m ctx st1 st2 tgt t1 t2 sa1 sa2
                        heqn1 heqn2 hI1 hI2
                      rw [Except.ok.injEq, Prod.mk.injEq] at h1 h2
                      rw [← h1.1, ← h2.1, hv]
                    · exact Except.noConfusion h2
                  · exact Except.noConfusion h1
                · exact Except.noConfusion h1
          case _ => exact Except.noConfusion h1
        case _ => exact Except.noConfusion h1
    have hDocT : ∀ (n2 : Nat) (ctx : Ctx) (st1 st2 : St) (d o1 o2 : Toml) (s1 s2 : St),
        resolveDocT (n + 1) ctx st1 d = .ok (o1, s1) →
        resolveDocT n2 ctx st2 d = .ok (o2, s2) →
        InvSt ctx.selfUrl ctx.w st1 → InvSt ctx.selfUrl ctx.w st2 → o1 = o2 := by
      intro n2 ctx st1 st2 d o1 o2 s1 s2 h1 h2 hI1 hI2
      cases n2 with
      | zero => cases h2
      | succ m =>
        cases d with
        | table es =>
          simp only [resolveDocT] at h1 h2
          split at h1
          · exact Except.noConfusion h1
          · rename_i hroot
            rw [if_neg hroot] at h2
            split at h1
            · rename_i es1 sa1 heq1
              split at h2
              · rename_i es2 sa2 heq2
                have hv := ihEntries m ctx st1 st2 es es1 es2 sa1 sa2 heq1 heq2 hI1 hI2
                rw [Except.ok.injEq, Prod.mk.injEq] at h1 h2
                rw [← h1.1, ← h2.1, hv]
              · exact Except.noConfusion h2
            · exact Except.noConfusion h1
        | prim p => cases h1
        | arr xs => cases h1
        | tagged s v => cases h1
    refine ⟨hNode, ?_, ?_, ?_, hImp, hDocT⟩
    · intro n2 ctx st1 st2 es o1 o2 s1 s2 h1 h2 hI1 hI2
      cases es with
      | nil =>
        simp only [resolveEntries] at h1 h2
        rw [Except.ok.injEq, Prod.mk.injEq] at h1 h2
        rw [← h1.1, ← h2.1]
      | cons kv rest =>
        cases n2 with
        | zero => cases h2
        | succ m =>
          obtain ⟨k, v⟩ := kv
          simp only [resolveEntries] at h1 h2
          split at h1
          · rename_i v1 sa1 heq1
            split at h2
            · rename_i v2 sa2 heq2
              have hv := ihNode m ctx st1 st2 v v1 v2 sa1 sa2 heq1 heq2 hI1 hI2
              have hIa1 := ((resolveOk n).1 ctx st1 v v1 sa1 heq1 hI1).1
              have hIa2 := ((resolveOk m).1 ctx st2 v v2 sa2 heq2 hI2).1
              split at h1
              · rename_i rest1 sb1 heqr1
                split at h2
                · rename_i rest2 sb2 heqr2
                  have hr := ihEntries m ctx sa1 sa2 rest rest1 rest2 sb1 sb2
                    heqr1 heqr2 hIa1 hIa2
                  rw [Except.ok.injEq, Prod.mk.injEq] at h1 h2
                  rw [← h1.1, ← h2.1, hv, hr]
                · exact Except.noConfusion h2
              · exact Except.noConfusion h1
            · exact Except.noConfusion h2
          · exact Except.noConfusion h1
    · intro n2 ctx st1 st2 xs o1 o2 s1 s2 h1 h2 hI1 hI2
      cases xs with
      | nil =>
        simp only [resolveElems] at h1 h2
        rw [Except.ok.injEq, Prod.mk.injEq] at h1 h2
        rw [← h1.1, ← h2.1]
      | cons x rest =>
        cases n2 with
        | zero => cases h2
        | succ m =>
          simp only [resolveElems] at h1 h2
          split at h1
          · rename_i x1 sa1 heq1
            split at h2
            · rename_i x2 sa2 heq2
              have hv := ihElem m ctx st1 st2 x x1 x2 sa1 sa2 heq1 heq2 hI1 hI2
              have hIa1 := ((resolveOk n).2.2.2.1 ctx st1 x x1 sa1 heq1 hI1).1
              have hIa2 := ((resolveOk m).2.2.2.1 ctx st2 x x2 sa2 heq2 hI2).1
              split at h1
              · rename_i rest1 sb1 heqr1
                split at h2
                · rename_i rest2 sb2 heqr2
                  have hr := ihElems m ctx sa1 sa2 rest rest1 rest2 sb1 sb2
                    heqr1 heqr2 hIa1 hIa2
                  rw [Except.ok.injEq, Prod.mk.injEq] at h1 h2
                  rw [← h1.1, ← h2.1, hv, hr]
                · exact Except.noConfusion h2
              · exact Except.noConfusion h1
            · exact Except.noConfusion h2
          · exact Except.noConfusion h1
    · intro n2 ctx st1 st2 x o1 o2 s1 s2 h1 h2 hI1 hI2
      cases n2 with
      | zero => cases h2
      | succ m =>
        cases x with
        | table es =>
          simp only [resolveElem] at h1 h2
          split at h1
          · rename_i spec heq
            simp only [heq] at h2
            split at h1
            · rename_i sub1 sa1 heqi1
              split at h2
              · rename_i sub2 sa2 heqi2
                have hsub := ihImp m ctx st1 st2 spec sub1 sub2 sa1 sa2
                  heqi1 heqi2 hI1 hI2
                subst hsub
                have hIa1 := ((resolveOk n).2.2.2.2.1 ctx st1 spec sub1 sa1 heqi1 hI1).1
                have hIa2 := ((resolveOk m).2.2.2.2.1 ctx st2 spec sub1 sa2 heqi2 hI2).1
                split at h1
                · rename_i sibs1 sb1 heqs1
                  split at h2
                  · rename_i sibs2 sb2 heqs2
                    have hsibs := ihEntries m ctx sa1 sa2 _ sibs1 sibs2 sb1 sb2
                      heqs1 heqs2 hIa1 hIa2
                    subst hsibs
                    split at h1
                    · rename_i tes heqv
                      simp only [heqv] at h2
                      rw [Except.ok.injEq, Prod.mk.injEq] at h1 h2
                      rw [← h1.1, ← h2.1]
                    · rename_i hne
                      split at h2
                      · rename_i tes heqv
                        exact absurd heqv (hne tes)
                      · rw [Except.ok.injEq, Prod.mk.injEq] at h1 h2
                        rw [← h1.1, ← h2.1]
                  · exact Except.noConfusion h2
                · exact Except.noConfusion h1
              · exact Except.noConfusion h2
            · exact Except.noConfusion h1
          · rename_i heq
            simp only [heq] at h2
            split at h1
            · rename_i es1 sa1 heq1
              split at h2
              · rename_i es2 sa2 heq2
                have hv := ihEntries m ctx st1 st2 es es1 es2 sa1 sa2 heq1 heq2 hI1 hI2
                rw [Except.ok.injEq, Prod.mk.injEq] at h1 h2
                rw [← h1.1, ← h2.1, hv]
              · exact Except.noConfusion h2
            · exact Except.noConfusion h1
        | prim p =>
          simp only [resolveElem] at h1 h2
          exact ihNode m ctx st1 st2 _ o1 o2 s1 s2 h1 h2 hI1 hI2
        | arr xs =>
          simp only [resolveElem] at h1 h2
          exact ihNode m ctx st1 st2 _ o1 o2 s1 s2 h1 h2 hI1 hI2
        | tagged s v =>
          simp only [resolveElem] at h1 h2
          exact ihNode m ctx st1 st2 _ o1 o2 s1 s2 h1 h2 hI1 hI2

/-- Each entry of a table resolved by `resolveEntries` is obtained by running
`resolveNode` on that entry's original value from some invariant-satisfying
intermediate state, and is found in the output under its key. -/
theorem resolveEntries_lookup :
    ∀ (es : List (String × Toml)) (n : Nat) (ctx : Ctx) (st : St)
      (out : List (String × Toml)) (st' : St) (k : String) (v : Toml),
      resolveEntries n ctx st es = .ok (out, st') →
      InvSt ctx.selfUrl ctx.w st →
      (es.map Prod.fst).Nodup →
      (k, v) ∈ es →
      ∃ (m : Nat) (stA : St) (vr : Toml) (stB : St),
        InvSt ctx.selfUrl ctx.w stA ∧ resolveNode m ctx stA v = .ok (vr, stB) ∧
        alist out k = some vr := by
  intro es
  induction es with
  | nil => intro n ctx st out st' k v h hI hnd hm; simp at hm
  | cons kv rest ih =>
    intro n ctx st out st' k v h hI hnd hm
    obtain ⟨k0, v0⟩ := kv
    cases n with
    | zero => cases h
    | succ m =>
      simp only [resolveEntries] at h
      split at h
      · rename_i v1 st1 heq1
        split at h
        · rename_i rest1 st2 heqr
          rw [Except.ok.injEq, Prod.mk.injEq] at h
          obtain ⟨rfl, rfl⟩ := h
          rcases List.mem_cons.mp hm with heqkv | hmem
          · rw [Prod.mk.injEq] at heqkv
            obtain ⟨rfl, rfl⟩ := heqkv
            exact ⟨m, st, v1, st1, hI, heq1, by simp [alist]⟩
          · have hIa := ((resolveOk m).1 ctx st v0 v1 st1 heq1 hI).1
            simp only [List.map_cons, List.nodup_cons] at hnd
            have hk0 : ¬(k0 = k) := by
              intro hc
              subst hc
              exact hnd.1 (List.mem_map_of_mem Prod.fst hmem)
            obtain ⟨m', stA, vr, stB, hIA, heqN, hal⟩ :=
              ih m ctx st1 rest1 st2 k v heqr hIa hnd.2 hmem
            exact ⟨m', stA, vr, stB, hIA, heqN, by simp [alist, hk0, hal]⟩
        · exact Except.noConfusion h
      · exact Except.noConfusion h

theorem alist_setPathE_ne :
    ∀ (es : List (String × Toml)) (k : String) (p : List String) (v : Toml)
      (k2 : String), ¬(k = k2) →
      alist (setPathE es k p v) k2 = alist es k2 := by
  intro es
  induction es with
  | nil => intro k p v k2 _; rfl
  | cons kv rest ih =>
    intro k p v k2 hne
    obtain ⟨k', u⟩ := kv
    simp only [setPathE]
    by_cases h1 : k' = k
    · rw [if_pos h1]
      simp only [alist]
      rw [if_neg (by rw [h1]; exact hne), if_neg (by rw [h1]; exact hne)]
      exact ih k p v k2 hne
    · rw [if_neg h1]
      simp only [alist]
      by_cases h2 : k' = k2
      · rw [if_pos h2, if_pos h2]
      · rw [if_neg h2, if_neg h2]
        exact ih k p v k2 hne

theorem setPath_index_ne :
    ∀ (t : Toml) (k1 : String) (p : List String) (v : Toml) (k2 : String),
      ¬(k1 = k2) → (setPath t (k1 :: p) v).index k2 = t.index k2
  | .prim q, k1, p, v, k2, h => by simp [setPath]
  | .arr xs, k1, p, v, k2, h => by simp [setPath, Toml.index]
  | .table es, k1, p, v, k2, h => by
    simp only [setPath, Toml.index]
    exact alist_setPathE_ne es k1 p v k2 h
  | .tagged s u, k1, p, v, k2, h => by
    simp only [setPath, Toml.index]
    exact setPath_index_ne u k1 p v k2 h

/-- C4: two top-level import sites of one document declaring the same
declaration (hence resolving to the same source node) receive structurally equal
copies, and the copies are independently owned — mutating below one site
(modelled by `setPath`) never changes what is read at the other site. -/
theorem claim_C4 :
    (∀ (fuel : Nat) (w : World) (url : String) (r : Repo)
        (des e1 e2 : List (String × Toml)) (k1 k2 : String) (spec : Toml),
      Repo.construct fuel w url = .ok r →
      alist w.docs (configUrlOf w url) = some (.table des) →
      (des.map Prod.fst).Nodup →
      (k1, Toml.table e1) ∈ des → (k2, Toml.table e2) ∈ des →
      alist e1 "import" = some spec → alist e2 "import" = some spec →
      ∃ vcopy, r.config.index k1 = some vcopy ∧ r.config.index k2 = some vcopy)
    ∧ ∀ (t : Toml) (k1 : String) (p : List String) (v : Toml) (k2 : String),
        ¬(k1 = k2) → (setPath t (k1 :: p) v).index k2 = t.index k2 := by
  refine ⟨?_, setPath_index_ne⟩
  intro fuel w url r des e1 e2 k1 k2 spec hc hdoc hnd hm1 hm2 hs1 hs2
  cases fuel with
  | zero => cases hc
  | succ n =>
    simp only [Repo.construct] at hc
    split at hc
    · exact Except.noConfusion hc
    · rename_i doc heq
      have hdoc' : doc = .table des := Option.some.inj (heq.symm.trans hdoc)
      subst hdoc'
      split at hc
      · rename_i cfg st1 heqd
        rw [Except.ok.injEq] at hc
        subst hc
        cases n with
        | zero => cases heqd
        | succ m =>
          simp only [resolveDocT] at heqd
          split at heqd
          · exact Except.noConfusion heqd
          · rename_i hroot
            split at heqd
            · rename_i out st1' heqe
              rw [Except.ok.injEq, Prod.mk.injEq] at heqd
              obtain ⟨rfl, rfl⟩ := heqd
              have hI0 : InvSt url w ⟨[], []⟩ := ⟨rfl, List.nodup_nil, by simp⟩
              obtain ⟨ma, stA, v1, stB, hIA, hN1, ha1⟩ :=
                resolveEntries_lookup des m ⟨w, url, configUrlOf w url, .table des⟩
                  ⟨[], []⟩ out st1' k1 (Toml.table e1) heqe hI0 hnd hm1
              obtain ⟨mb, stC, v2, stD, hIC, hN2, ha2⟩ :=
                resolveEntries_lookup des m ⟨w, url, configUrlOf w url, .table des⟩
                  ⟨[], []⟩ out st1' k2 (Toml.table e2) heqe hI0 hnd hm2
              cases ma with
              | zero => cases hN1
              | succ ma' =>
                cases mb with
                | zero => cases hN2
                | succ mb' =>
                  simp only [resolveNode, hs1] at hN1
                  simp only [resolveNode, hs2] at hN2
                  have hv : v1 = v2 :=
                    (resolveVD ma').2.2.2.2.1 mb' _ stA stC spec v1 v2 stB stD
                      hN1 hN2 hIA hIC
                  refine ⟨v1, ?_, ?_⟩
                  · simpa [Toml.index] using ha1
                  · rw [hv]
                    simpa [Toml.index] using ha2
            · exact Except.noConfusion heqd
      · exact Except.noConfusion hc

/-- C4 witness: in the isolation world both sites import the node `shared`
from the same library document and the built config holds equal copies; and
the frame clause applied at a concrete tree — writing below `copy1` leaves
the lookup of `copy2` unchanged. -/
theorem claim_C4_w :
    (∃ r vcopy, Repo.construct 30 wIso "file://r5/main.toml" = .ok r
      ∧ r.config.index "copy1" = some vcopy ∧ r.config.index "copy2" = some vcopy)
    ∧ (setPath (.table [("copy1", .prim (.i 1)), ("copy2", .prim (.i 2))])
        ["copy1", "mutable"] (.prim (.i 20))).index "copy2" =
      (Toml.table [("copy1", .prim (.i 1)), ("copy2", .prim (.i 2))]).index "copy2" := by
  constructor
  · obtain ⟨v, h1, h2⟩ := claim_C4.1 30 wIso "file://r5/main.toml" _
      [("repo", .table [("kind", .prim (.s "recipe"))]),
       ("copy1", .table [("import", .table [
          ("file", .prim (.s "base.toml")), ("node", .prim (.s "shared"))])]),
       ("copy2", .table [("import", .table [
          ("file", .prim (.s "base.toml")), ("node", .prim (.s "shared"))])])]
      [("import", .table [("file", .prim (.s "base.toml")),
                          ("node", .prim (.s "shared"))])]
      [("import", .table [("file", .prim (.s "base.toml")),
                          ("node", .prim (.s "shared"))])]
      "copy1" "copy2"
      (.table [("file", .prim (.s "base.toml")), ("node", .prim (.s "shared"))])
      rfl rfl (by decide)
      (List.mem_cons_of_mem _ (List.mem_cons_self _ _))
      (List.mem_cons_of_mem _ (List.mem_cons_of_mem _ (List.mem_cons_self _ _)))
      rfl rfl
    exact ⟨_, v, rfl, h1, h2⟩
  · exact claim_C4.2 _ "copy1" ["mutable"] _ "copy2" (by decide)

/-- C10 counterexample: in the same-file world of
`test_basic_import_same_file`, the node stored at the same-file import site
`my_stage` is itself a `source`-tagged wrapper — the very same runtime
representation as a `file`/`repo` import site, exposing the imported table
through `.value` — so the representation does not depend on the kind
of the declaration. -/
theorem claim_C10_cex :
    ∃ r, Repo.construct 30 wSame "file://r3/test.toml" = .ok r
      ∧ r.config.index "my_stage" = some (Toml.tagged "file://r3/test.toml"
          (.table [("tool", .prim (.s "siril")),
                   ("description", .prim (.s "Base stage definition")),
                   ("context", .table [("value", .prim (.i 42))])]))
      ∧ (Toml.tagged "file://r3/test.toml"
          (.table [("tool", .prim (.s "siril")),
                   ("description", .prim (.s "Base stage definition")),
                   ("context", .table [("value", .prim (.i 42))])])).value =
        .table [("tool", .prim (.s "siril")),
                ("description", .prim (.s "Base stage definition")),
                ("context", .table [("value", .prim (.i 42))])] :=
  ⟨_, rfl, rfl, rfl⟩

/-- C10 (amended): the runtime representation of a resolved import site is
uniform across import kinds — every node that hosts an `import` table (file,
repo, or same-file alike) resolves to a `source`-tagged wrapper whose
`.value` is the imported content and whose keys remain reachable by direct
indexing through the tag; in particular the `file`-import site `final` of the
chained world exposes the imported table through `.value`-style access. -/
theorem claim_C10 :
    (∀ (n : Nat) (ctx : Ctx) (st : St) (es : List (String × Toml)) (spec out : Toml)
        (st' : St),
      alist es "import" = some spec →
      resolveNode (n + 1) ctx st (.table es) = .ok (out, st') →
      ∃ x, out = .tagged ctx.selfUrl x)
    ∧ (∀ (s : String) (x : Toml) (k : String),
        (Toml.tagged s x).value = x.value ∧ (Toml.tagged s x).index k = x.index k)
    ∧ ∃ r, Repo.construct 30 wChain "file://r/main.toml" = .ok r
        ∧ r.config.index "final" = some (Toml.tagged "file://r/main.toml"
            (.table [("tool", .prim (.s "siril")), ("base_value", .prim (.i 1))]))
        ∧ (Toml.table [("tool", .prim (.s "siril")),
            ("base_value", .prim (.i 1))]).index "tool" = some (.prim (.s "siril")) := by
  refine ⟨?_, ?_, ⟨_, rfl, rfl, rfl⟩⟩
  · intro n ctx st es spec out st' hsp h
    simp only [resolveNode, hsp] at h
    exact resolveImp_tagged n ctx st spec out st' h
  · intro s x k
    exact ⟨rfl, rfl⟩

/-- C10 witness: the general wrapper clause applied at a concrete
same-file import node (the element body of the `wAot` world). -/
theorem claim_C10_w :
    ∃ x, Toml.tagged "file://r2/test.toml"
        (.table [("tool", .prim (.s "siril")), ("priority", .prim (.i 10))]) =
      .tagged "file://r2/test.toml" x :=
  claim_C10.1 20
    ⟨wAot, "file://r2/test.toml", "file://r2/test.toml",
     .table [("base_stage", .table [("tool", .prim (.s "siril")),
               ("priority", .prim (.i 10))])]⟩
    ⟨[], []⟩ [("import", .table [("node", .prim (.s "base_stage"))])]
    (.table [("node", .prim (.s "base_stage"))]) _ ⟨[], []⟩ rfl rfl

end TomlRepo